import Mathlib

/-!
Verification development for the WebsiteCloner scraper
(src/src/website_cloner.py of the HTMLHustler repository).

Python strings are modelled as lists of characters (`Chars`).  The
functions of `urllib.parse` that the scraper calls (`urlparse`,
`urlunparse`, `urljoin`) are external library collaborators; they are
modelled here faithfully after the CPython implementation, with two
documented simplifications:

* the `params` component is kept inside `path` (CPython splits the part
  after the last `;` of the final path segment off and re-attaches it on
  unparsing, so the 5-component model produces the same strings);
* the WHATWG control-character stripping that CPython applies first is
  omitted: the model assumes URLs free of ASCII control characters,
  which all URLs appearing in the claims are.

All definitions are executable, so every concrete scenario below is
checked by evaluation inside the kernel.
-/

/-- Python strings are modelled as lists of characters. -/
abbrev Chars := List Char

/-- The single-quote character (ASCII 39). -/
def squote : Char := Char.ofNat 39

/-- The backslash character (ASCII 92). -/
def bslash : Char := Char.ofNat 92

/-- ASCII upper-case letter test, as used by `str.lower` for the scheme. -/
def isUpperCh (c : Char) : Bool := decide (65 ≤ c.toNat ∧ c.toNat ≤ 90)

/-- ASCII letter test (`url[0].isascii() and url[0].isalpha()` in urlsplit). -/
def isAlphaCh (c : Char) : Bool :=
  decide ((65 ≤ c.toNat ∧ c.toNat ≤ 90) ∨ (97 ≤ c.toNat ∧ c.toNat ≤ 122))

/-- ASCII digit test. -/
def isDigitCh (c : Char) : Bool := decide (48 ≤ c.toNat ∧ c.toNat ≤ 57)

/-- Membership in urllib's `scheme_chars` (letters, digits, `+`, `-`, `.`). -/
def isSchemeChar (c : Char) : Bool :=
  isAlphaCh c || isDigitCh c || c == '+' || c == '-' || c == '.'

/-- ASCII lower-casing of one character, as `str.lower` does on schemes. -/
def lowerCh (c : Char) : Char := if isUpperCh c then Char.ofNat (c.toNat + 32) else c

/-- Lower-case a whole string (`str.lower`, restricted to ASCII input). -/
def lowerStr (s : Chars) : Chars := s.map lowerCh

/-- Split a list at the first occurrence of `c`: `some (before, after)`
with `c` removed, or `none` when `c` does not occur.  This models both
`str.find` plus slicing and `str.partition`. -/
def splitAtFirst (c : Char) : Chars → Option (Chars × Chars)
  | [] => none
  | a :: s =>
    if a = c then some ([], s)
    else
      match splitAtFirst c s with
      | none => none
      | some (x, y) => some (a :: x, y)

/-- Substring containment, modelling Python's `needle in hay`. -/
def containsSub (needle : Chars) (hay : Chars) : Bool :=
  if needle.isPrefixOf hay then true
  else
    match hay with
    | [] => false
    | _ :: t => containsSub needle t

/-- Strip leading and trailing occurrences of `c` (Python `str.strip('/')`
and `str.rstrip('/')` are built from this). -/
def stripLead (c : Char) (s : Chars) : Chars := s.dropWhile (fun a => a = c)

/-- Strip trailing occurrences of `c` (Python `str.rstrip(c)`). -/
def stripTrail (c : Char) (s : Chars) : Chars :=
  (s.reverse.dropWhile (fun a => a = c)).reverse

/-- Python `str.strip(c)`: both ends. -/
def stripBoth (c : Char) (s : Chars) : Chars := stripTrail c (stripLead c s)

/-- Python `str.replace(old, new)` for a nonempty pattern: replace all
non-overlapping occurrences left to right.  (For an empty pattern Python
interleaves `new` everywhere; the scraper only ever replaces nonempty
patterns, and the model returns the string unchanged in that case.) -/
def replaceAllFuel (pat rep : Chars) : Nat → Chars → Chars
  | 0, s => s
  | fuel + 1, s =>
    if pat ≠ [] ∧ pat.isPrefixOf s then
      rep ++ replaceAllFuel pat rep fuel (s.drop pat.length)
    else
      match s with
      | [] => []
      | a :: t => a :: replaceAllFuel pat rep fuel t

/-- Python `str.replace(old, new)` for a nonempty pattern: replace all
non-overlapping occurrences left to right.  (For an empty pattern Python
interleaves `new` everywhere; the scraper only ever replaces nonempty
patterns, and the model returns the string unchanged in that case.)
Each scan step consumes at least one character, so `s.length` fuel
always suffices. -/
def replaceAll (pat rep : Chars) (s : Chars) : Chars :=
  replaceAllFuel pat rep s.length s

/-- The five URL components of the `urlsplit` model.  The `params`
component of `urlparse` is retained inside `path` (see the header note). -/
structure UrlParts where
  scheme : Chars
  netloc : Chars
  path : Chars
  query : Chars
  fragment : Chars
deriving DecidableEq

/-- `parsed._replace(fragment=...)` from the source. -/
def UrlParts.withFragment (p : UrlParts) (f : Chars) : UrlParts := { p with fragment := f }

/-- Scheme extraction of CPython `urlsplit`: the text before the first
`:` must be nonempty, start with an ASCII letter and consist of
`scheme_chars`; the scheme is returned lower-cased. -/
def extractScheme (u : Chars) : Option (Chars × Chars) :=
  match splitAtFirst ':' u with
  | none => none
  | some (pre, rest) =>
    match pre with
    | [] => none
    | c0 :: _ =>
      if isAlphaCh c0 && pre.all isSchemeChar then some (pre.map lowerCh, rest)
      else none

/-- Characters at which `_splitnetloc` stops the authority component. -/
def nlStop (c : Char) : Bool := c == '/' || c == '?' || c == '#'

/-- The fragment/query stage of `urlsplit`: split the remainder (after
scheme and authority) at the first `#` into document part and fragment,
then the document part at the first `?` into path and query.  Returns
`(path, query, fragment)`. -/
def splitQF (r2 : Chars) : Chars × Chars × Chars :=
  let rf := match splitAtFirst '#' r2 with
    | some ab => ab
    | none => (r2, ([] : Chars))
  let pq := match splitAtFirst '?' rf.1 with
    | some ab => ab
    | none => (rf.1, ([] : Chars))
  (pq.1, pq.2, rf.2)

/-- CPython `urlsplit(url)` without a default scheme: the raw split.
A missing scheme is represented by `[]`. -/
def urlsplitRaw (u : Chars) : UrlParts :=
  let sr := match extractScheme u with
    | some sr => sr
    | none => (([] : Chars), u)
  let nr :=
    if sr.2.take 2 = ['/', '/'] then
      ((sr.2.drop 2).takeWhile (fun c => !nlStop c), (sr.2.drop 2).dropWhile (fun c => !nlStop c))
    else (([] : Chars), sr.2)
  let pqf := splitQF nr.2
  ⟨sr.1, nr.1, pqf.1, pqf.2.1, pqf.2.2⟩

/-- CPython `urlsplit(url, scheme=default)`: the default scheme is used
when the URL carries none of its own. -/
def urlsplitD (u : Chars) (default : Chars) : UrlParts :=
  let p := urlsplitRaw u
  if p.scheme = [] then { p with scheme := default } else p

/-- CPython `urlunsplit`, which is also what `urlunparse` amounts to in
the 5-component model. -/
def urlunsplit (p : UrlParts) : Chars :=
  let u0 := p.path
  let u1 :=
    if p.netloc ≠ [] ∨ u0.take 2 = ['/', '/'] then
      ['/', '/'] ++ p.netloc ++ (if u0 ≠ [] ∧ u0.take 1 ≠ ['/'] then '/' :: u0 else u0)
    else u0
  let u2 := if p.scheme ≠ [] then p.scheme ++ ':' :: u1 else u1
  let u3 := if p.query ≠ [] then u2 ++ '?' :: p.query else u2
  if p.fragment ≠ [] then u3 ++ '#' :: p.fragment else u3

/-- urllib's `uses_relative` scheme list. -/
def uses_relative : List Chars :=
  [[], "ftp".data, "http".data, "gopher".data, "nntp".data, "imap".data,
   "wais".data, "file".data, "https".data, "shttp".data, "mms".data,
   "prospero".data, "rtsp".data, "rtspu".data, "sftp".data, "svn".data,
   "svn+ssh".data, "ws".data, "wss".data]

/-- urllib's `uses_netloc` scheme list. -/
def uses_netloc : List Chars :=
  [[], "ftp".data, "http".data, "gopher".data, "nntp".data, "telnet".data,
   "imap".data, "wais".data, "file".data, "mms".data, "https".data,
   "shttp".data, "snews".data, "prospero".data, "rtsp".data, "rtspu".data,
   "rsync".data, "svn".data, "svn+ssh".data, "sftp".data, "nfs".data,
   "git".data, "git+ssh".data, "ws".data, "wss".data]

/-- Split a path on `/` (Python `path.split('/')`); always nonempty. -/
def splitSlashAux : Chars → Chars → List Chars
  | [], acc => [acc.reverse]
  | a :: rest, acc =>
    if a = '/' then acc.reverse :: splitSlashAux rest []
    else splitSlashAux rest (a :: acc)

/-- Python `path.split('/')`. -/
def splitSlash (s : Chars) : List Chars := splitSlashAux s []

/-- `'/'.join(parts)`. -/
def joinSlash (parts : List Chars) : Chars :=
  match parts with
  | [] => []
  | [x] => x
  | x :: rest => x ++ '/' :: joinSlash rest

/-- `segments[1:-1] = filter(None, segments[1:-1])` from `urljoin`:
drop empty segments, keeping the first and last elements. -/
def filterMidKeepLast : List Chars → List Chars
  | [] => []
  | [x] => [x]
  | x :: rest => if x = [] then filterMidKeepLast rest else x :: filterMidKeepLast rest

/-- Apply the middle filter of `urljoin` to a segment list. -/
def keepEndsFilterMiddle : List Chars → List Chars
  | [] => []
  | [x] => [x]
  | x :: rest => x :: filterMidKeepLast rest

/-- The `..`/`.` resolution loop of `urljoin` (`resolved_path`). -/
def resolveSegments (segments : List Chars) : List Chars :=
  segments.foldl
    (fun acc seg =>
      if seg = ['.', '.'] then acc.dropLast
      else if seg = ['.'] then acc
      else acc ++ [seg])
    []

/-- CPython `urljoin(base, url)` (5-component model; `allow_fragments`
is left at its default as in the source). -/
def urljoin (base url : Chars) : Chars :=
  if base = [] then url
  else if url = [] then base
  else
    let b := urlsplitRaw base
    let t := urlsplitD url b.scheme
    if t.scheme ≠ b.scheme ∨ t.scheme ∉ uses_relative then url
    else
      if t.scheme ∈ uses_netloc ∧ t.netloc ≠ [] then
        urlunsplit t
      else
        let netloc := if t.scheme ∈ uses_netloc then b.netloc else t.netloc
        if t.path = [] then
          urlunsplit ⟨t.scheme, netloc, b.path,
                      (if t.query = [] then b.query else t.query), t.fragment⟩
        else
          let base_parts0 := splitSlash b.path
          let base_parts :=
            if base_parts0.getLast? ≠ some [] then base_parts0.dropLast else base_parts0
          let segments :=
            if t.path.take 1 = ['/'] then splitSlash t.path
            else keepEndsFilterMiddle (base_parts ++ splitSlash t.path)
          let resolved0 := resolveSegments segments
          let resolved :=
            if segments.getLast? = some ['.'] ∨ segments.getLast? = some ['.', '.'] then
              resolved0 ++ [[]]
            else resolved0
          let joined := joinSlash resolved
          let path' := if joined = [] then ['/'] else joined
          urlunsplit ⟨t.scheme, netloc, path', t.query, t.fragment⟩

/-- A check used in several places: does the lower-cased URL contain any
of the given substrings (`any(ext in url.lower() for ext in exts)`)? -/
def hasAnySub (subs : List Chars) (s : Chars) : Bool :=
  subs.any (fun e => containsSub e (lowerStr s))

/-- The per-run state fields of `WebsiteCloner.__init__` that the
verified operations read: the (slash-stripped) base URL, the site domain
`urlparse(base_url).netloc`, and the output directory. -/
structure Cloner where
  base_url : Chars
  domain : Chars
  output_dir : Chars
deriving DecidableEq

/-- `WebsiteCloner(base_url, output_dir)`: `base_url.rstrip('/')` and
`urlparse(base_url).netloc` (of the constructor argument). -/
def mkCloner (base_url output_dir : Chars) : Cloner :=
  ⟨stripTrail '/' base_url, (urlsplitRaw base_url).netloc, output_dir⟩

/-- The literal prefix `data:`. -/
def dataPre : Chars := "data:".data

/-- The literal prefix `javascript:`. -/
def jsPre : Chars := "javascript:".data

/-- `WebsiteCloner._is_same_domain`: the netloc equals the site domain,
is empty (relative URL), equals `www.` plus the domain, or equals the
domain with all `www.` occurrences removed. -/
def is_same_domain (cl : Cloner) (url : Chars) : Bool :=
  let netloc := (urlsplitRaw url).netloc
  netloc = cl.domain ∨ netloc = [] ∨ netloc = "www.".data ++ cl.domain ∨
    netloc = replaceAll ("www.".data) [] cl.domain

/-- `WebsiteCloner._normalize_url(url, base)`: empty for falsy, `data:`
and `javascript:` inputs, otherwise `urljoin` against `base or
self.base_url` with the fragment stripped. -/
def normalize_url (cl : Cloner) (url : Chars) (base : Option Chars) : Chars :=
  if url = [] ∨ dataPre.isPrefixOf url ∨ jsPre.isPrefixOf url then []
  else
    let b := match base with
      | none => cl.base_url
      | some bb => if bb = [] then cl.base_url else bb
    urlunsplit ((urlsplitRaw (urljoin b url)).withFragment [])

/-- `WebsiteCloner._get_filename_from_url(url, prefix)`, factored
through the path component so that equal paths visibly give equal
filenames.  `strip('/')`, flatten separators to `_`, drop any query
remnant after `?`, default extension `.html`. -/
def filenameFromPath (path0 : Chars) (pre : Chars) : Chars :=
  let path1 := stripBoth '/' path0
  let path2 :=
    if path1 = [] ∨ path1.getLast? = some '/' then "index.html".data else path1
  let f1 := path2.map (fun c => if c = '/' ∨ c = bslash then '_' else c)
  let f2 := match splitAtFirst '?' f1 with
    | some aq => aq.1
    | none => f1
  let f3 := if ('.' : Char) ∈ f2 then f2 else f2 ++ ".html".data
  pre ++ f3

/-- `_get_filename_from_url` proper: the filename depends only on the
parsed path (the query never reaches the filename since `urlparse`
already separates it). -/
def get_filename_from_url (url : Chars) (pre : Chars) : Chars :=
  filenameFromPath (urlsplitRaw url).path pre

/-- The HTTP transport collaborator for asset fetches: `some content`
models a 2xx `requests.get`, `none` models any raised exception
(timeout, non-2xx after `raise_for_status`, transport error). -/
structure Net where
  fetchAsset : Chars → Option Chars

/-- The mutable per-run asset state of `WebsiteCloner`: the three dedup
sets (in insertion order), the files written (path, content) in write
order, and the log of URLs passed to `requests.get`. -/
structure AssetState where
  downloaded_images : List Chars
  downloaded_css : List Chars
  downloaded_js : List Chars
  files : List (Chars × Chars)
  fetchLog : List Chars
deriving DecidableEq

/-- The empty initial asset state. -/
def AssetState.init : AssetState := ⟨[], [], [], [], []⟩

/-- `os.path.join(output_dir, sub, fn)`. -/
def filePath (cl : Cloner) (sub : Chars) (fn : Chars) : Chars :=
  cl.output_dir ++ '/' :: sub ++ '/' :: fn

/-- The content a path holds after a run: the last write wins,
modelling repeated `open(filepath, 'w')`. -/
def fileContent (files : List (Chars × Chars)) (p : Chars) : Option Chars :=
  ((files.filter (fun e => e.1 = p)).getLast?).map Prod.snd

/-- `WebsiteCloner.download_image`: dedup on the full URL via
`downloaded_images`; on a fresh URL one fetch, write under `images/`,
record the URL; on failure return `''`. -/
def download_image (cl : Cloner) (net : Net) (url : Chars) (s : AssetState) :
    Chars × AssetState :=
  if url ∈ s.downloaded_images then (get_filename_from_url url ("img_".data), s)
  else
    match net.fetchAsset url with
    | some content =>
      let fn := get_filename_from_url url ("img_".data)
      (fn, { s with
              files := s.files ++ [(filePath cl ("images".data) fn, content)],
              downloaded_images := s.downloaded_images ++ [url],
              fetchLog := s.fetchLog ++ [url] })
    | none => ([], { s with fetchLog := s.fetchLog ++ [url] })

/-- `WebsiteCloner.download_js`: same dedup discipline as images, with
the `script_` prefix and the `js/` tree. -/
def download_js (cl : Cloner) (net : Net) (url : Chars) (s : AssetState) :
    Chars × AssetState :=
  if url ∈ s.downloaded_js then (get_filename_from_url url ("script_".data), s)
  else
    match net.fetchAsset url with
    | some content =>
      let fn := get_filename_from_url url ("script_".data)
      (fn, { s with
              files := s.files ++ [(filePath cl ("js".data) fn, content)],
              downloaded_js := s.downloaded_js ++ [url],
              fetchLog := s.fetchLog ++ [url] })
    | none => ([], { s with fetchLog := s.fetchLog ++ [url] })

/-- `WebsiteCloner._download_font`: note there is no dedup set — every
call on a fresh or known URL alike performs a fetch. -/
def download_font (cl : Cloner) (net : Net) (url : Chars) (s : AssetState) :
    Chars × AssetState :=
  match net.fetchAsset url with
  | some content =>
    let fn := get_filename_from_url url ("font_".data)
    (fn, { s with
            files := s.files ++ [(filePath cl ("fonts".data) fn, content)],
            fetchLog := s.fetchLog ++ [url] })
  | none => ([], { s with fetchLog := s.fetchLog ++ [url] })

/-- Image extensions checked by `_process_css_urls`. -/
def imageExts : List Chars :=
  [".png".data, ".jpg".data, ".jpeg".data, ".gif".data, ".svg".data,
   ".webp".data, ".ico".data]

/-- Font extensions checked by `_process_css_urls`. -/
def fontExts : List Chars :=
  [".woff".data, ".woff2".data, ".ttf".data, ".eot".data, ".otf".data]

/-- One match of the regex `url\(["']?([^"'()]+)["']?\)` at the head of
the input: returns `(inner, wholeMatch, rest)`.  The optional quotes are
greedy; the character class excludes both quote kinds and parentheses,
so the regex backtracking reduces to the two explicit cases below. -/
def matchUrlRef (cs : Chars) : Option (Chars × Chars × Chars) :=
  if cs.take 4 = "url(".data then
    let afterParen := cs.drop 4
    let qb :=
      match afterParen with
      | c :: r => if c = '"' ∨ c = squote then (([c] : Chars), r) else (([] : Chars), afterParen)
      | [] => (([] : Chars), ([] : Chars))
    let q1 := qb.1
    let body := qb.2
    let run := body.takeWhile (fun c => !(c == '"' || c == squote || c == '(' || c == ')'))
    let after := body.drop run.length
    if run = [] then none
    else
      match after with
      | ')' :: rest => some (run, "url(".data ++ q1 ++ run ++ [')'], rest)
      | c :: d :: rest =>
        if (c = '"' ∨ c = squote) ∧ d = ')' then
          some (run, "url(".data ++ q1 ++ run ++ [c, ')'], rest)
        else none
      | _ => none
  else none

/-- The `replace_url` closure inside `_process_css_urls`: skip `data:`
and already-local `../images/` references, normalize against the CSS
file URL, download by extension kind, rewrite on success, otherwise
keep the whole original match. -/
def replaceUrlRef (cl : Cloner) (net : Net) (cssUrl : Chars)
    (inner whole : Chars) (s : AssetState) : Chars × AssetState :=
  if ("data:".data).isPrefixOf inner ∨ ("../images/".data).isPrefixOf inner then (whole, s)
  else
    let abs := normalize_url cl inner (some cssUrl)
    if abs = [] then (whole, s)
    else if hasAnySub imageExts abs then
      let r := download_image cl net abs s
      if r.1 ≠ [] then ("url(../images/".data ++ r.1 ++ [')'], r.2) else (whole, r.2)
    else if hasAnySub fontExts abs then
      let r := download_font cl net abs s
      if r.1 ≠ [] then ("url(../fonts/".data ++ r.1 ++ [')'], r.2) else (whole, r.2)
    else (whole, s)

/-- The `re.sub` scan of `_process_css_urls`: left-to-right,
non-overlapping matches, each replaced through `replaceUrlRef`.  Fuel
bounds the scan; `processCss` supplies enough for the whole input. -/
def processCssAux (cl : Cloner) (net : Net) (cssUrl : Chars) :
    Nat → Chars → AssetState → Chars × AssetState
  | 0, cs, s => (cs, s)
  | _ + 1, [], s => ([], s)
  | fuel + 1, c :: cs, s =>
    match matchUrlRef (c :: cs) with
    | some (inner, whole, rest) =>
      let rs := replaceUrlRef cl net cssUrl inner whole s
      let ts := processCssAux cl net cssUrl fuel rest rs.2
      (rs.1 ++ ts.1, ts.2)
    | none =>
      let ts := processCssAux cl net cssUrl fuel cs s
      (c :: ts.1, ts.2)

/-- `WebsiteCloner._process_css_urls(css_content, css_url)`. -/
def process_css_urls (cl : Cloner) (net : Net) (content cssUrl : Chars)
    (s : AssetState) : Chars × AssetState :=
  processCssAux cl net cssUrl (content.length + 1) content s

/-- `WebsiteCloner.download_css`: dedup on the full URL; on a fresh URL
fetch, rewrite nested `url()` references (downloading them), write the
transformed text under `css/`, record the URL; on failure return `''`. -/
def download_css (cl : Cloner) (net : Net) (url : Chars) (s : AssetState) :
    Chars × AssetState :=
  if url ∈ s.downloaded_css then (get_filename_from_url url ("style_".data), s)
  else
    match net.fetchAsset url with
    | none => ([], { s with fetchLog := s.fetchLog ++ [url] })
    | some content =>
      let s1 : AssetState := { s with fetchLog := s.fetchLog ++ [url] }
      let fn := get_filename_from_url url ("style_".data)
      let pr := process_css_urls cl net content url s1
      (fn, { pr.2 with
              files := pr.2.files ++ [(filePath cl ("css".data) fn, pr.1)],
              downloaded_css := pr.2.downloaded_css ++ [url] })

/-- The stylesheet loop of `scrape_page`: for each `<link rel=stylesheet>`
href, normalize against the page URL, `download_css`, and rewrite the
href to `../css/<name>` on success.  Returns the final href values. -/
def processCssLinks (cl : Cloner) (net : Net) (pageUrl : Chars) :
    List Chars → AssetState → List Chars × AssetState
  | [], s => ([], s)
  | href :: rest, s =>
    let hs :=
      if href = [] then (href, s)
      else
        let u := normalize_url cl href (some pageUrl)
        if u ≠ [] then
          let r := download_css cl net u s
          if r.1 ≠ [] then ("../css/".data ++ r.1, r.2) else (href, r.2)
        else (href, s)
    let ts := processCssLinks cl net pageUrl rest hs.2
    (hs.1 :: ts.1, ts.2)

/-- The image loop of `scrape_page`: for each `<img>` source value
(`src` or `data-src`), normalize, skip `data:`, `download_image`, and
rewrite the `src` to `../images/<name>` on success.  Returns the final
attribute values. -/
def processImages (cl : Cloner) (net : Net) (pageUrl : Chars) :
    List Chars → AssetState → List Chars × AssetState
  | [], s => ([], s)
  | src :: rest, s =>
    let hs :=
      if src = [] then (src, s)
      else
        let u := normalize_url cl src (some pageUrl)
        if u ≠ [] ∧ ¬ dataPre.isPrefixOf u then
          let r := download_image cl net u s
          if r.1 ≠ [] then ("../images/".data ++ r.1, r.2) else (src, r.2)
        else (src, s)
    let ts := processImages cl net pageUrl rest hs.2
    (hs.1 :: ts.1, ts.2)

/-- `WebsiteCloner.find_internal_links(soup, base_url)` applied to the
list of `<a href>` values in document order: normalize each href against
the page URL, keep nonempty same-domain results without the non-HTML
extensions, collecting them as a set (first-occurrence order). -/
def find_internal_links (cl : Cloner) (hrefs : List Chars) (baseUrl : Chars) :
    List Chars :=
  hrefs.foldl
    (fun acc href =>
      let a := normalize_url cl href (some baseUrl)
      if a ≠ [] ∧ is_same_domain cl a = true ∧
          hasAnySub [".pdf".data, ".zip".data, ".doc".data, ".xls".data] a = false ∧
          a ∉ acc
      then acc ++ [a] else acc)
    []

/-- The page-level transport and parser collaborator for the crawl
model: fetching and parsing a page either fails (`none`: timeout,
non-2xx status, transport error) or yields the list of `<a href>`
values of the parsed page in document order. -/
structure CrawlSite where
  fetchPage : Chars → Option (List Chars)

/-- The crawl state of `scrape_full_site`: the pending set
`pages_to_visit` (a Python `set`; modelled as a duplicate-free list
whose pop order is chosen by an arbitrary selection function), the
`visited_pages` set in insertion order, and the log of URLs passed to
`requests.get`, in call order. -/
structure CrawlState where
  queue : List Chars
  visited : List Chars
  fetchLog : List Chars
deriving DecidableEq

/-- `WebsiteCloner.scrape_page(url)` as the crawl loop sees it: `none`
for an already-visited page or a failed fetch; on success the URL joins
`visited_pages` and the page's hrefs are returned.  The asset downloads
and the HTML write inside `scrape_page` touch neither `visited_pages`,
`pages_to_visit` nor the page fetch log, so they are handled by the
separate asset model above. -/
def scrape_page (site : CrawlSite) (s : CrawlState) (url : Chars) :
    Option (List Chars) × CrawlState :=
  if url ∈ s.visited then (none, s)
  else
    match site.fetchPage url with
    | none => (none, { s with fetchLog := s.fetchLog ++ [url] })
    | some hrefs =>
      (some hrefs,
       { s with visited := s.visited ++ [url], fetchLog := s.fetchLog ++ [url] })

/-- `set.add` semantics for the queue: `pages_to_visit.update(...)`. -/
def insertIfAbsent (q : List Chars) (x : Chars) : List Chars :=
  if x ∈ q then q else q ++ [x]

/-- One iteration of the `while` loop of `scrape_full_site`: pop an
arbitrary element (Python `set.pop`; the selection function `pick`
chooses which), skip it if visited, otherwise scrape it and enqueue the
newly found internal links that are not yet visited. -/
def crawlStep (cl : Cloner) (site : CrawlSite) (pick : CrawlState → Nat)
    (s : CrawlState) : CrawlState :=
  match s.queue.get? (pick s % s.queue.length) with
  | none => s
  | some url =>
    let s1 : CrawlState := { s with queue := s.queue.eraseIdx (pick s % s.queue.length) }
    if url ∈ s1.visited then s1
    else
      match scrape_page site s1 url with
      | (none, s2) => s2
      | (some hrefs, s2) =>
        let links := find_internal_links cl hrefs url
        let fresh := links.filter (fun l => l ∉ s2.visited)
        { s2 with queue := fresh.foldl insertIfAbsent s2.queue }

/-- Has the `while` loop of `scrape_full_site(max_pages)` terminated? -/
def crawlDone (maxPages : Nat) (s : CrawlState) : Bool :=
  s.queue = [] ∨ ¬ s.visited.length < maxPages

/-- The `while` loop of `scrape_full_site`, run for at most `fuel`
iterations (the theorems below exhibit a fuel that always suffices). -/
def crawlLoop (cl : Cloner) (site : CrawlSite) (pick : CrawlState → Nat)
    (maxPages : Nat) : Nat → CrawlState → CrawlState
  | 0, s => s
  | fuel + 1, s =>
    if crawlDone maxPages s then s
    else crawlLoop cl site pick maxPages fuel (crawlStep cl site pick s)

/-- The initial crawl state of `scrape_full_site`:
`pages_to_visit = {self.base_url}`. -/
def initCrawlState (cl : Cloner) : CrawlState := ⟨[cl.base_url], [], []⟩

/-- The summary fields of `_save_summary` that concern pages.  The
summary lists the visited pages and their count; the source records no
failure entries of any kind. -/
structure RunSummary where
  base_url : Chars
  pages_scraped : Nat
  visited_pages : List Chars
deriving DecidableEq

/-- `WebsiteCloner._save_summary`, page fields. -/
def mkSummary (cl : Cloner) (s : CrawlState) : RunSummary :=
  ⟨cl.base_url, s.visited.length, s.visited⟩

/-- The termination measure of the crawl loop: each remaining visit
budget can enqueue at most `linkBound` new URLs, and each iteration
consumes one queue entry. -/
def crawlMeasure (maxPages linkBound : Nat) (s : CrawlState) : Nat :=
  (maxPages - s.visited.length) * (linkBound + 3) + s.queue.length

/-! Concrete scenario fixtures used by the counterexamples and witnesses. -/

/-- Output directory used by the scenarios. -/
def outDir : Chars := "out".data

/-- A cloner for the site `http://e.com/` (domain `e.com`). -/
def clE : Cloner := mkCloner ("http://e.com/".data) outDir

/-- The start URL after `rstrip('/')`. -/
def urlE : Chars := "http://e.com".data

/-- Page `/a` of the fixture site. -/
def urlEa : Chars := "http://e.com/a".data

/-- Page `/b` of the fixture site. -/
def urlEb : Chars := "http://e.com/b".data

/-- Page `/c` of the fixture site. -/
def urlEc : Chars := "http://e.com/c".data

/-- Fixture for the failed-fetch scenario: the start page links `/b`
and `/c`; fetching `/b` always fails (HTTP 404); `/c` links `/b` again. -/
def siteC1 : CrawlSite :=
  ⟨fun u =>
    if u = urlE then some ["/b".data, "/c".data]
    else if u = urlEc then some ["/b".data]
    else none⟩

/-- A selection function that always pops the set's first element. -/
def pick0 : CrawlState → Nat := fun _ => 0

/-- The failed-fetch crawl, run to completion. -/
def runC1 : CrawlState := crawlLoop clE siteC1 pick0 50 10 (initCrawlState clE)

/-- Fixture for the traversal-order scenario: the start page links `/a`
(which links `/c`) and `/b`; `/b` and `/c` have no links. -/
def siteC4 : CrawlSite :=
  ⟨fun u =>
    if u = urlE then some ["/a".data, "/b".data]
    else if u = urlEa then some ["/c".data]
    else if u = urlEb then some []
    else if u = urlEc then some []
    else none⟩

/-- A selection function (an admissible `set.pop` order) that pops the
depth-2 page `/c` before the depth-1 page `/b`. -/
def pickC4 : CrawlState → Nat := fun st => if st.visited.length = 2 then 1 else 0

/-- The traversal-order crawl, run to completion. -/
def runC4 : CrawlState := crawlLoop clE siteC4 pickC4 50 10 (initCrawlState clE)

/-- Fixture for the termination witness: a two-page cyclic site
(`/a` links itself). -/
def siteC2 : CrawlSite :=
  ⟨fun u =>
    if u = urlE then some ["/a".data]
    else if u = urlEa then some ["/a".data]
    else none⟩

/-- A font URL for the dedup scenario. -/
def fontUrl : Chars := "http://e.com/f.woff".data

/-- Network fixture serving exactly that font. -/
def netFont : Net := ⟨fun u => if u = fontUrl then some ("FONT".data) else none⟩

/-- A cloner for the site `http://site.test/`. -/
def clSite : Cloner := mkCloner ("http://site.test/".data) outDir

/-- The stylesheet URL of scenario 2. -/
def cssUrl7 : Chars := "http://site.test/styles.css".data

/-- The background image URL that `../img/bg.png` resolves to against
the stylesheet URL. -/
def bgUrl7 : Chars := "http://site.test/img/bg.png".data

/-- The stylesheet text of scenario 2, containing `url(../img/bg.png)`. -/
def cssContent7 : Chars := "background: url(../img/bg.png);".data

/-- Network fixture for scenario 2. -/
def net7 : Net :=
  ⟨fun u =>
    if u = cssUrl7 then some cssContent7
    else if u = bgUrl7 then some ("PNG".data) else none⟩

/-- Scenario 2 run: process a page whose only stylesheet href is
`styles.css`. -/
def runC7 : List Chars × AssetState :=
  processCssLinks clSite net7 ("http://site.test/".data) ["styles.css".data] AssetState.init

/-- Two image URLs that differ only in their query string. -/
def imgUrlV1 : Chars := "http://e.com/a.png?v=1".data

/-- The second of the two image URLs. -/
def imgUrlV2 : Chars := "http://e.com/a.png?v=2".data

/-- Network fixture serving both query-variant URLs with distinct bodies. -/
def netV : Net :=
  ⟨fun u =>
    if u = imgUrlV1 then some ("ONE".data)
    else if u = imgUrlV2 then some ("TWO".data) else none⟩

/-- A network fixture on which every fetch fails. -/
def netDown : Net := ⟨fun _ => none⟩

/-- A mailto link as it appears in an `<a href>`. -/
def mailtoUrl : Chars := "mailto:contact@example.org".data

/-- A well-formed base URL for witnesses. -/
def httpBase : Chars := "http://example.com".data

/-- A cloner based at `http://example.com`. -/
def clEx : Cloner := mkCloner httpBase outDir

/-- A scheme string as `urlsplit` produces it: nonempty, leading ASCII
letter, all `scheme_chars`, already lower-case. -/
def validSchemeLC (s : Chars) : Bool :=
  (match s with
   | [] => false
   | c :: _ => isAlphaCh c) && s.all isSchemeChar && decide (s.map lowerCh = s)

/-- The shape of the base URLs the scraper actually joins against
(`self.base_url`, a page URL or a stylesheet URL): nonempty, with a
hierarchical scheme known to urllib (in `uses_relative` and
`uses_netloc`, e.g. `http`/`https`) and a nonempty host. -/
def GoodBase (b : Chars) : Prop :=
  b ≠ [] ∧ (urlsplitRaw b).scheme ≠ [] ∧ (urlsplitRaw b).scheme ∈ uses_relative ∧
    (urlsplitRaw b).scheme ∈ uses_netloc ∧ (urlsplitRaw b).netloc ≠ []

/-! Theorems.  Shared helper lemmas come first, then one theorem per
claim (with its witness or counterexample where required). -/

/-- Helper: the last write to a path determines its content. -/
theorem fileContent_append_last (l : List (Chars × Chars)) (p c : Chars) :
    fileContent (l ++ [(p, c)]) p = some c := by
  unfold fileContent
  rw [List.filter_append]
  simp

set_option maxHeartbeats 4000000 in
/-- Claim C1 (counterexample): on the fixture site where fetching
`http://e.com/b` always fails (HTTP 404) and `/b` is linked from both
the start page and `/c`, the completed run has not added `/b` to the
visited set, records no trace of `/b` in the run summary, and has
fetched `/b` twice — contradicting "the URL is still added to the
visited set ... and that URL is never fetched again within the same
run". -/
theorem crawl_failed_fetch_cex :
    urlEb ∉ runC1.visited ∧
    urlEb ∉ (mkSummary clE runC1).visited_pages ∧
    runC1.fetchLog.count urlEb = 2 ∧
    crawlDone 50 runC1 = true := by decide

/-- Claim C1 (amended): when a page fetch fails, `scrape_page` returns
`None` and leaves the crawl state unchanged except for the attempted
fetch itself: the URL is not added to the visited set, and the run
summary (which has no failure field at all) is unaffected; the crawl
loop simply continues. -/
theorem scrape_page_failed_fetch_state (cl : Cloner) (site : CrawlSite)
    (s : CrawlState) (url : Chars)
    (h1 : url ∉ s.visited) (h2 : site.fetchPage url = none) :
    scrape_page site s url = (none, { s with fetchLog := s.fetchLog ++ [url] }) ∧
    (scrape_page site s url).2.visited = s.visited ∧
    mkSummary cl (scrape_page site s url).2 = mkSummary cl s := by
  have he : scrape_page site s url = (none, { s with fetchLog := s.fetchLog ++ [url] }) := by
    simp [scrape_page, h1, h2]
  refine ⟨he, by rw [he], ?_⟩
  rw [he]
  rfl

/-- Witness for the amended C1 theorem at a concrete failing page. -/
theorem scrape_page_failed_fetch_state_witness :
    scrape_page siteC1 (CrawlState.mk [] [] []) urlEb =
      (none, CrawlState.mk [] [] [urlEb]) ∧
    (scrape_page siteC1 (CrawlState.mk [] [] []) urlEb).2.visited = [] ∧
    mkSummary clE (scrape_page siteC1 (CrawlState.mk [] [] []) urlEb).2 =
      mkSummary clE (CrawlState.mk [] [] []) :=
  scrape_page_failed_fetch_state clE siteC1 ⟨[], [], []⟩ urlEb
    (by decide) (by decide)

/-- Claim C3 (counterexample): the font URL `http://e.com/f.woff`
requested twice in one run is fetched twice — `_download_font` keeps no
dedup set — contradicting "exactly one network fetch is issued" for
font assets.  (Both calls do return the same local path.) -/
theorem download_font_refetch_cex :
    ((download_font clE netFont fontUrl
        ((download_font clE netFont fontUrl AssetState.init).2)).2).fetchLog =
      [fontUrl, fontUrl] ∧
    (download_font clE netFont fontUrl
        ((download_font clE netFont fontUrl AssetState.init).2)).1 =
      (download_font clE netFont fontUrl AssetState.init).1 := by decide

/-- Claim C3 (amended): for images, scripts and stylesheets a URL
requested twice with a successful first fetch is served from the dedup
set on the second request: images and scripts issue exactly one network
fetch across both requests, and for stylesheets the second request
performs no work at all (no fetch, unchanged state), all returning the
same local path both times; fonts return the same local path on success
but are fetched on every request. -/
theorem asset_dedup_images_js_css_not_fonts :
    (∀ cl net s u c, u ∉ s.downloaded_images → net.fetchAsset u = some c →
      (download_image cl net u s).1 =
        (download_image cl net u (download_image cl net u s).2).1 ∧
      (download_image cl net u (download_image cl net u s).2).2 =
        (download_image cl net u s).2 ∧
      ((download_image cl net u s).2).fetchLog = s.fetchLog ++ [u]) ∧
    (∀ cl net s u c, u ∉ s.downloaded_js → net.fetchAsset u = some c →
      (download_js cl net u s).1 =
        (download_js cl net u (download_js cl net u s).2).1 ∧
      (download_js cl net u (download_js cl net u s).2).2 =
        (download_js cl net u s).2 ∧
      ((download_js cl net u s).2).fetchLog = s.fetchLog ++ [u]) ∧
    (∀ cl net s u c, u ∉ s.downloaded_css → net.fetchAsset u = some c →
      (download_css cl net u s).1 = get_filename_from_url u ("style_".data) ∧
      (download_css cl net u (download_css cl net u s).2).1 =
        (download_css cl net u s).1 ∧
      (download_css cl net u (download_css cl net u s).2).2 =
        (download_css cl net u s).2) ∧
    (∀ cl net s u c, net.fetchAsset u = some c →
      (download_font cl net u ((download_font cl net u s).2)).1 =
        (download_font cl net u s).1 ∧
      ((download_font cl net u ((download_font cl net u s).2)).2).fetchLog =
        s.fetchLog ++ [u, u]) := by
  refine ⟨?_, ?_, ?_, ?_⟩
  · intro cl net s u c hu hf
    simp [download_image, hu, hf]
  · intro cl net s u c hu hf
    simp [download_js, hu, hf]
  · intro cl net s u c hu hf
    have hmem : u ∈ (download_css cl net u s).2.downloaded_css := by
      simp [download_css, hu, hf]
    have h1 : (download_css cl net u s).1 = get_filename_from_url u ("style_".data) := by
      simp [download_css, hu, hf]
    set s1 := (download_css cl net u s).2 with hs1
    have h2 : download_css cl net u s1 =
        (get_filename_from_url u ("style_".data), s1) := by
      unfold download_css
      rw [if_pos hmem]
    refine ⟨h1, ?_, ?_⟩
    · rw [h2, h1]
    · rw [h2]
  · intro cl net s u c hf
    simp [download_font, hf]

/-- Witness for the amended C3 theorem on concrete image, stylesheet
and font URLs. -/
theorem asset_dedup_images_js_css_not_fonts_witness :
    ((download_image clE netV imgUrlV1 AssetState.init).1 =
        (download_image clE netV imgUrlV1
          (download_image clE netV imgUrlV1 AssetState.init).2).1 ∧
      (download_image clE netV imgUrlV1
          (download_image clE netV imgUrlV1 AssetState.init).2).2 =
        (download_image clE netV imgUrlV1 AssetState.init).2 ∧
      ((download_image clE netV imgUrlV1 AssetState.init).2).fetchLog = [] ++ [imgUrlV1]) ∧
    ((download_css clSite net7 cssUrl7 AssetState.init).1 =
        get_filename_from_url cssUrl7 ("style_".data) ∧
      (download_css clSite net7 cssUrl7
          (download_css clSite net7 cssUrl7 AssetState.init).2).1 =
        (download_css clSite net7 cssUrl7 AssetState.init).1 ∧
      (download_css clSite net7 cssUrl7
          (download_css clSite net7 cssUrl7 AssetState.init).2).2 =
        (download_css clSite net7 cssUrl7 AssetState.init).2) ∧
    ((download_font clE netFont fontUrl
        ((download_font clE netFont fontUrl AssetState.init).2)).1 =
        (download_font clE netFont fontUrl AssetState.init).1 ∧
      ((download_font clE netFont fontUrl
          ((download_font clE netFont fontUrl AssetState.init).2)).2).fetchLog =
        [] ++ [fontUrl, fontUrl]) :=
  ⟨(asset_dedup_images_js_css_not_fonts.1 clE netV AssetState.init imgUrlV1 ("ONE".data)
      (by decide) (by decide)),
   (asset_dedup_images_js_css_not_fonts.2.2.1 clSite net7 AssetState.init cssUrl7 cssContent7
      (by decide) (by decide)),
   (asset_dedup_images_js_css_not_fonts.2.2.2 clE netFont AssetState.init fontUrl ("FONT".data)
      (by decide))⟩

set_option maxHeartbeats 4000000 in
/-- Claim C4 (counterexample): `pages_to_visit` is a Python `set`, so
the loop pops an arbitrary element.  Under the admissible pop order
`pickC4`, the fixture site (start links `/a` and `/b`; `/a` links `/c`)
is visited in the order start, `/a`, `/c`, `/b`: the page `/c`, first
discovered at link depth 2, is visited before `/b`, discovered at depth
1 — contradicting first-in-first-out, breadth-first order. -/
theorem crawl_order_not_bfs_cex :
    runC4.visited = [urlE, urlEa, urlEc, urlEb] ∧
    "/b".data ∈ ["/a".data, "/b".data] ∧
    siteC4.fetchPage urlE = some ["/a".data, "/b".data] ∧
    siteC4.fetchPage urlEa = some ["/c".data] ∧
    urlEc ∉ find_internal_links clE ["/a".data, "/b".data] urlE ∧
    urlEc ∈ find_internal_links clE ["/c".data] urlEa ∧
    urlEb ∈ find_internal_links clE ["/a".data, "/b".data] urlE := by decide

set_option maxHeartbeats 2000000 in
/-- Claim C5 (counterexample): normalization is not idempotent.  For
the input `DATA:xyz` (upper-case scheme) the first normalization
lower-cases the scheme, producing `data:xyz`; normalizing that output
returns the empty string because of the case-sensitive
`startswith('data:')` guard. -/
theorem normalize_upper_data_cex :
    normalize_url clEx ("DATA:xyz".data) none = "data:xyz".data ∧
    normalize_url clEx (normalize_url clEx ("DATA:xyz".data) none) none = [] ∧
    ([] : Chars) ≠ "data:xyz".data := by decide

/-- Claim C6: the same-domain test treats a `www.` prefix as equivalent
to the bare domain in both directions. -/
theorem same_domain_www_equiv :
    (∀ (cl : Cloner) (u : Chars), cl.domain = "example.com".data →
      (urlsplitRaw u).netloc = "www.example.com".data → is_same_domain cl u = true) ∧
    (∀ (cl : Cloner) (u : Chars), cl.domain = "www.example.com".data →
      (urlsplitRaw u).netloc = "example.com".data → is_same_domain cl u = true) := by
  constructor
  · intro cl u hd hn
    unfold is_same_domain
    rw [hn, hd]
    decide
  · intro cl u hd hn
    unfold is_same_domain
    rw [hn, hd]
    decide

/-- Witness for C6 at concrete URLs. -/
theorem same_domain_www_equiv_witness :
    is_same_domain (Cloner.mk [] ("example.com".data) []) ("https://www.example.com/x".data) = true ∧
    is_same_domain (Cloner.mk [] ("www.example.com".data) []) ("https://example.com/x".data) = true :=
  ⟨same_domain_www_equiv.1 ⟨[], "example.com".data, []⟩ ("https://www.example.com/x".data)
      rfl (by decide),
   same_domain_www_equiv.2 ⟨[], "www.example.com".data, []⟩ ("https://example.com/x".data)
      rfl (by decide)⟩

/-- Helper: one `set.add` grows the queue by at most one element. -/
theorem insertIfAbsent_length (q : List Chars) (x : Chars) :
    (insertIfAbsent q x).length ≤ q.length + 1 := by
  unfold insertIfAbsent
  split
  · omega
  · simp

/-- Helper: `pages_to_visit.update` grows the queue by at most the
number of offered links. -/
theorem foldl_insertIfAbsent_length (l : List Chars) :
    ∀ q : List Chars, (l.foldl insertIfAbsent q).length ≤ q.length + l.length := by
  induction l with
  | nil => intro q; simp
  | cons x t ih =>
    intro q
    have h1 := insertIfAbsent_length q x
    have h2 := ih (insertIfAbsent q x)
    simp only [List.foldl_cons, List.length_cons]
    omega

/-- Helper: a fold whose step grows the accumulator by at most one
element is bounded by the number of folded items. -/
theorem foldl_growth_le (f : List Chars → Chars → List Chars)
    (hf : ∀ acc x, (f acc x).length ≤ acc.length + 1) :
    ∀ (l : List Chars) (acc : List Chars),
      (l.foldl f acc).length ≤ acc.length + l.length := by
  intro l
  induction l with
  | nil => intro acc; simp
  | cons x t ih =>
    intro acc
    have h1 := hf acc x
    have h2 := ih (f acc x)
    simp only [List.foldl_cons, List.length_cons]
    omega

/-- Helper: `find_internal_links` returns at most as many links as
there are hrefs on the page. -/
theorem find_internal_links_length (cl : Cloner) (hrefs : List Chars) (baseUrl : Chars) :
    (find_internal_links cl hrefs baseUrl).length ≤ hrefs.length := by
  unfold find_internal_links
  have h := foldl_growth_le
    (fun acc href =>
      let a := normalize_url cl href (some baseUrl)
      if a ≠ [] ∧ is_same_domain cl a = true ∧
          hasAnySub [".pdf".data, ".zip".data, ".doc".data, ".xls".data] a = false ∧
          a ∉ acc
      then acc ++ [a] else acc)
    (by
      intro acc x
      simp only []
      split
      · simp
      · simp)
    hrefs []
  simpa using h

/-- Helper: `scrape_page` on an unvisited page whose fetch fails. -/
theorem scrape_page_none_eq (site : CrawlSite) (s : CrawlState) (url : Chars)
    (hv : url ∉ s.visited) (hf : site.fetchPage url = none) :
    scrape_page site s url = (none, { s with fetchLog := s.fetchLog ++ [url] }) := by
  simp [scrape_page, hv, hf]

/-- Helper: `scrape_page` on an unvisited page whose fetch succeeds. -/
theorem scrape_page_some_eq (site : CrawlSite) (s : CrawlState) (url : Chars)
    (hrefs : List Chars) (hv : url ∉ s.visited) (hf : site.fetchPage url = some hrefs) :
    scrape_page site s url =
      (some hrefs,
       { s with visited := s.visited ++ [url], fetchLog := s.fetchLog ++ [url] }) := by
  simp [scrape_page, hv, hf]

/-- Helper: each loop iteration either leaves the visited set unchanged
or appends exactly one previously unvisited URL. -/
theorem crawlStep_visited_cases (cl : Cloner) (site : CrawlSite)
    (pick : CrawlState → Nat) (s : CrawlState) :
    (crawlStep cl site pick s).visited = s.visited ∨
    ∃ url, url ∉ s.visited ∧ (crawlStep cl site pick s).visited = s.visited ++ [url] := by
  simp only [crawlStep]
  split
  · exact Or.inl rfl
  · rename_i url hg
    split
    · exact Or.inl rfl
    · rename_i hv
      cases hf : site.fetchPage url with
      | none =>
        rw [scrape_page_none_eq site
          ⟨s.queue.eraseIdx (pick s % s.queue.length), s.visited, s.fetchLog⟩ url hv hf]
        exact Or.inl rfl
      | some hrefs =>
        rw [scrape_page_some_eq site
          ⟨s.queue.eraseIdx (pick s % s.queue.length), s.visited, s.fetchLog⟩ url hrefs hv hf]
        exact Or.inr ⟨url, hv, rfl⟩

/-- Helper: bound on queue growth of one loop iteration, given a bound
`L` on the number of hrefs any fetched page can carry. -/
theorem crawlStep_queue_len (cl : Cloner) (site : CrawlSite)
    (pick : CrawlState → Nat) (L : Nat)
    (hL : ∀ u hrefs, site.fetchPage u = some hrefs → hrefs.length ≤ L)
    (s : CrawlState) (hq : s.queue ≠ []) :
    ((crawlStep cl site pick s).visited = s.visited ∧
      (crawlStep cl site pick s).queue.length + 1 ≤ s.queue.length) ∨
    ((crawlStep cl site pick s).queue.length + 1 ≤ s.queue.length + L ∧
      (crawlStep cl site pick s).visited.length = s.visited.length + 1) := by
  have hlen : 0 < s.queue.length := List.length_pos.mpr hq
  have hi : pick s % s.queue.length < s.queue.length := Nat.mod_lt _ hlen
  have herase : (s.queue.eraseIdx (pick s % s.queue.length)).length = s.queue.length - 1 := by
    rw [List.length_eraseIdx]
    simp [hi]
  simp only [crawlStep]
  split
  · rename_i hg
    rw [List.get?_eq_get hi] at hg
    exact absurd hg (by simp)
  · rename_i url hg
    split
    · rename_i hv
      left
      refine ⟨rfl, ?_⟩
      simp only [herase]
      omega
    · rename_i hv
      cases hf : site.fetchPage url with
      | none =>
        rw [scrape_page_none_eq site
          ⟨s.queue.eraseIdx (pick s % s.queue.length), s.visited, s.fetchLog⟩ url hv hf]
        left
        refine ⟨rfl, ?_⟩
        simp only [herase]
        omega
      | some hrefs =>
        rw [scrape_page_some_eq site
          ⟨s.queue.eraseIdx (pick s % s.queue.length), s.visited, s.fetchLog⟩ url hrefs hv hf]
        right
        constructor
        · have h1 := foldl_growth_le insertIfAbsent
            (fun acc x => insertIfAbsent_length acc x)
            ((find_internal_links cl hrefs url).filter
              (fun l => decide (l ∉ s.visited ++ [url])))
            (s.queue.eraseIdx (pick s % s.queue.length))
          have h2 : ((find_internal_links cl hrefs url).filter
              (fun l => decide (l ∉ s.visited ++ [url]))).length ≤
              (find_internal_links cl hrefs url).length :=
            List.length_filter_le _ _
          have h3 := find_internal_links_length cl hrefs url
          have h4 := hL url hrefs hf
          simp only [herase] at h1
          simp only []
          omega
        · simp

/-- Helper: one iteration strictly decreases the crawl measure while
the loop condition holds. -/
theorem crawlStep_measure_lt (cl : Cloner) (site : CrawlSite)
    (pick : CrawlState → Nat) (maxPages L : Nat)
    (hL : ∀ u hrefs, site.fetchPage u = some hrefs → hrefs.length ≤ L)
    (s : CrawlState) (hrun : crawlDone maxPages s = false) :
    crawlMeasure maxPages L (crawlStep cl site pick s) < crawlMeasure maxPages L s := by
  have hrun' : ¬ (s.queue = [] ∨ ¬ s.visited.length < maxPages) := by
    intro h
    rw [crawlDone] at hrun
    simp only [decide_eq_false_iff_not] at hrun
    exact hrun h
  push_neg at hrun'
  obtain ⟨hq, hv⟩ := hrun'
  rcases crawlStep_queue_len cl site pick L hL s hq with ⟨hsame, hlen⟩ | ⟨hlen, hinc⟩
  · unfold crawlMeasure
    rw [hsame]
    have hql : 0 < s.queue.length := List.length_pos.mpr hq
    omega
  · unfold crawlMeasure
    rw [hinc]
    have hd : maxPages - s.visited.length = (maxPages - (s.visited.length + 1)) + 1 := by
      omega
    rw [hd, Nat.add_mul, Nat.one_mul]
    have hql : 0 < s.queue.length := List.length_pos.mpr hq
    generalize (maxPages - (s.visited.length + 1)) * (L + 3) = k
    omega

/-- Claim C2: for every start URL, page cap, pop order and site whose
pages each carry at most `L` links, the crawl loop never lets the
visited set exceed the cap, and once given
`crawlMeasure maxPages L (initCrawlState cl)` iterations of fuel it has
provably reached a terminal state (queue exhausted or cap reached) —
even on cyclic link graphs. -/
theorem crawl_cap_and_terminates (cl : Cloner) (site : CrawlSite)
    (pick : CrawlState → Nat) (maxPages L : Nat)
    (hL : ∀ u hrefs, site.fetchPage u = some hrefs → hrefs.length ≤ L) :
    (∀ fuel, (crawlLoop cl site pick maxPages fuel (initCrawlState cl)).visited.length
        ≤ maxPages) ∧
    crawlDone maxPages
      (crawlLoop cl site pick maxPages
        (crawlMeasure maxPages L (initCrawlState cl)) (initCrawlState cl)) = true := by
  have hcap : ∀ fuel s, s.visited.length ≤ maxPages →
      (crawlLoop cl site pick maxPages fuel s).visited.length ≤ maxPages := by
    intro fuel
    induction fuel with
    | zero => intro s hs; exact hs
    | succ n ih =>
      intro s hs
      simp only [crawlLoop]
      split
      · exact hs
      · rename_i hdone
        apply ih
        have hrun : s.visited.length < maxPages := by
          by_contra hcon
          apply hdone
          unfold crawlDone
          simp only [decide_eq_true_eq]
          right
          omega
        rcases crawlStep_visited_cases cl site pick s with hsame | ⟨url, _, happ⟩
        · rw [hsame]; omega
        · rw [happ]; simp only [List.length_append, List.length_singleton]; omega
  have hterm : ∀ fuel s, crawlMeasure maxPages L s ≤ fuel →
      crawlDone maxPages (crawlLoop cl site pick maxPages fuel s) = true := by
    intro fuel
    induction fuel with
    | zero =>
      intro s hs
      simp only [crawlLoop]
      by_contra hcon
      have hf : crawlDone maxPages s = false := by
        cases h : crawlDone maxPages s
        · rfl
        · exact absurd h hcon
      have hq : s.queue ≠ [] := by
        intro h
        rw [crawlDone] at hf
        simp only [decide_eq_false_iff_not] at hf
        exact hf (Or.inl h)
      have : 0 < s.queue.length := List.length_pos.mpr hq
      unfold crawlMeasure at hs
      omega
    | succ n ih =>
      intro s hs
      simp only [crawlLoop]
      split
      · assumption
      · rename_i hdone
        apply ih
        have hf : crawlDone maxPages s = false := by
          cases h : crawlDone maxPages s
          · rfl
          · exact absurd h hdone
        have := crawlStep_measure_lt cl site pick maxPages L hL s hf
        omega
  exact ⟨fun fuel => hcap fuel _ (by simp [initCrawlState]), hterm _ _ (le_refl _)⟩

/-- Witness for C2 on the concrete cyclic fixture site (the start page
links `/a`, which links itself): the visited set stays within the cap
and the loop reaches a terminal state within the computed fuel. -/
theorem crawl_cap_and_terminates_witness :
    (crawlLoop clE siteC2 pick0 50 5 (initCrawlState clE)).visited.length ≤ 50 ∧
    crawlDone 50
      (crawlLoop clE siteC2 pick0 50
        (crawlMeasure 50 1 (initCrawlState clE)) (initCrawlState clE)) = true := by
  have hL : ∀ u hrefs, siteC2.fetchPage u = some hrefs → hrefs.length ≤ 1 := by
    intro u hrefs h
    simp only [siteC2] at h
    split at h
    · cases h; decide
    · split at h
      · cases h; decide
      · cases h
  exact ⟨(crawl_cap_and_terminates clE siteC2 pick0 50 1 hL).1 5,
         (crawl_cap_and_terminates clE siteC2 pick0 50 1 hL).2⟩

/-- Claim C4 (amended): the frontier is an unordered set: each loop
iteration pops an arbitrary element, so no breadth-first or FIFO
ordering of visits is guaranteed; what does hold is that every URL is
scraped at most once — the visited list never contains a duplicate, for
every pop order, site and cap. -/
theorem crawl_visited_nodup (cl : Cloner) (site : CrawlSite)
    (pick : CrawlState → Nat) (maxPages fuel : Nat) :
    (crawlLoop cl site pick maxPages fuel (initCrawlState cl)).visited.Nodup := by
  have hstep : ∀ s : CrawlState, s.visited.Nodup → (crawlStep cl site pick s).visited.Nodup := by
    intro s hs
    rcases crawlStep_visited_cases cl site pick s with hsame | ⟨url, hmem, happ⟩
    · rw [hsame]; exact hs
    · rw [happ]
      simp [List.nodup_append, hs, hmem]
  have hloop : ∀ n s, (s : CrawlState).visited.Nodup →
      (crawlLoop cl site pick maxPages n s).visited.Nodup := by
    intro n
    induction n with
    | zero => intro s hs; exact hs
    | succ m ih =>
      intro s hs
      simp only [crawlLoop]
      split
      · exact hs
      · exact ih _ (hstep s hs)
  exact hloop fuel _ (by simp [initCrawlState])

set_option maxHeartbeats 4000000 in
/-- Claim C7 (counterexample): in end-to-end scenario 2 (page links
`styles.css` at the site root, the stylesheet references
`url(../img/bg.png)`), the run does **not** produce
`images/img_bg.png`, and the saved CSS does not reference
`../images/img_bg.png`: flattening the resolved path `/img/bg.png`
already yields `img_bg.png` before the `img_` prefix is added, so the
file is `images/img_img_bg.png`. -/
theorem css_scenario_filename_cex :
    fileContent runC7.2.files (filePath clSite ("images".data) ("img_bg.png".data)) = none ∧
    containsSub ("../images/img_bg.png".data)
      ((fileContent runC7.2.files
        (filePath clSite ("css".data) ("style_styles.css".data))).getD []) = false := by
  decide

set_option maxHeartbeats 4000000 in
/-- Claim C7 (amended): in scenario 2 both `css/style_styles.css` and
`images/img_img_bg.png` exist after the run, the stylesheet href is
rewritten to `../css/style_styles.css`, the relative reference was
resolved against the CSS file's own URL (the image fetched is
`http://site.test/img/bg.png`), and the saved CSS's reference points at
`../images/img_img_bg.png`. -/
theorem css_scenario_run :
    runC7.1 = ["../css/style_styles.css".data] ∧
    fileContent runC7.2.files (filePath clSite ("css".data) ("style_styles.css".data)) =
      some ("background: url(../images/img_img_bg.png);".data) ∧
    fileContent runC7.2.files (filePath clSite ("images".data) ("img_img_bg.png".data)) =
      some ("PNG".data) ∧
    runC7.2.fetchLog = [cssUrl7, bgUrl7] := by
  decide

/-- Claim C8: when an image asset's fetch fails, `download_image`
returns the empty string and only logs the attempted fetch, and the
page's image loop keeps the element's original attribute value and
continues with the remaining images exactly as it would from the state
after the failed attempt. -/
theorem asset_failure_keeps_reference (cl : Cloner) (net : Net)
    (pageUrl : Chars) (s : AssetState) (src : Chars) (rest : List Chars)
    (hsrc : src ≠ [])
    (hn : normalize_url cl src (some pageUrl) ≠ [])
    (hd : ¬ dataPre.isPrefixOf (normalize_url cl src (some pageUrl)) = true)
    (hmem : normalize_url cl src (some pageUrl) ∉ s.downloaded_images)
    (hf : net.fetchAsset (normalize_url cl src (some pageUrl)) = none) :
    download_image cl net (normalize_url cl src (some pageUrl)) s =
      ([], { s with fetchLog := s.fetchLog ++ [normalize_url cl src (some pageUrl)] }) ∧
    processImages cl net pageUrl (src :: rest) s =
      (src :: (processImages cl net pageUrl rest
          { s with fetchLog := s.fetchLog ++ [normalize_url cl src (some pageUrl)] }).1,
       (processImages cl net pageUrl rest
          { s with fetchLog := s.fetchLog ++ [normalize_url cl src (some pageUrl)] }).2) := by
  have hdl : download_image cl net (normalize_url cl src (some pageUrl)) s =
      ([], { s with fetchLog := s.fetchLog ++ [normalize_url cl src (some pageUrl)] }) := by
    simp [download_image, hmem, hf]
  refine ⟨hdl, ?_⟩
  simp only [processImages]
  rw [if_neg hsrc, if_pos ⟨hn, hd⟩, hdl]
  simp

/-- Witness for C8: with the network down, a page with the single image
`/x.png` keeps its original `src` attribute. -/
theorem asset_failure_keeps_reference_witness :
    (processImages clE netDown ("http://e.com/p".data) ["/x.png".data] AssetState.init).1 =
      ["/x.png".data] := by
  have h := asset_failure_keeps_reference clE netDown ("http://e.com/p".data)
    AssetState.init ("/x.png".data) [] (by decide) (by decide) (by decide)
    (by decide) (by decide)
  rw [h.2]
  rfl

/-- Claim C9: two distinct remote URLs with the same parsed path (for
example differing only in their query string) map to the identical
local filename, while the dedup set keys on the full URL: both URLs are
fetched, and the second download overwrites the first at the shared
path. -/
theorem query_urls_share_filename_overwrite (cl : Cloner) (net : Net)
    (s : AssetState) (u1 u2 c1 c2 : Chars)
    (hne : u1 ≠ u2)
    (hpath : (urlsplitRaw u1).path = (urlsplitRaw u2).path)
    (h1m : u1 ∉ s.downloaded_images) (h2m : u2 ∉ s.downloaded_images)
    (hf1 : net.fetchAsset u1 = some c1) (hf2 : net.fetchAsset u2 = some c2) :
    get_filename_from_url u1 ("img_".data) = get_filename_from_url u2 ("img_".data) ∧
    ((download_image cl net u2 (download_image cl net u1 s).2).2).fetchLog =
      s.fetchLog ++ [u1, u2] ∧
    fileContent ((download_image cl net u2 (download_image cl net u1 s).2).2).files
      (filePath cl ("images".data) (get_filename_from_url u1 ("img_".data))) = some c2 := by
  have hfn : get_filename_from_url u1 ("img_".data) = get_filename_from_url u2 ("img_".data) := by
    unfold get_filename_from_url
    rw [hpath]
  have hd1 : download_image cl net u1 s =
      (get_filename_from_url u1 ("img_".data),
       { s with
          files := s.files ++
            [(filePath cl ("images".data) (get_filename_from_url u1 ("img_".data)), c1)],
          downloaded_images := s.downloaded_images ++ [u1],
          fetchLog := s.fetchLog ++ [u1] }) := by
    simp [download_image, h1m, hf1]
  have h2m' : u2 ∉ s.downloaded_images ++ [u1] := by
    simp only [List.mem_append, List.mem_singleton]
    rintro (h | h)
    · exact h2m h
    · exact hne h.symm
  refine ⟨hfn, ?_, ?_⟩
  · rw [hd1]
    simp [download_image, h2m', hf2]
  · rw [hd1]
    simp only [download_image]
    rw [if_neg h2m']
    rw [hf2]
    simp only []
    rw [hfn]
    exact fileContent_append_last _ _ _

/-- Witness for C9 on `http://e.com/a.png?v=1` / `?v=2`: the second
body `TWO` ends up at the shared local path. -/
theorem query_urls_share_filename_overwrite_witness :
    fileContent ((download_image clE netV imgUrlV2
        (download_image clE netV imgUrlV1 AssetState.init).2).2).files
      (filePath clE ("images".data) (get_filename_from_url imgUrlV1 ("img_".data))) =
      some ("TWO".data) :=
  (query_urls_share_filename_overwrite clE netV AssetState.init imgUrlV1 imgUrlV2
    ("ONE".data) ("TWO".data) (by decide) (by decide) (by decide) (by decide)
    (by decide) (by decide)).2.2

/-- Helper: `_normalize_url` maps the mailto link to itself for every
nonempty base: `urljoin` returns non-`uses_relative` schemes unchanged,
and re-parsing plus unparsing reproduces the URL. -/
theorem normalize_mailto (cl : Cloner) (b : Chars) (hb : b ≠ []) :
    normalize_url cl mailtoUrl (some b) = mailtoUrl := by
  unfold normalize_url
  rw [if_neg (by decide :
    ¬(mailtoUrl = [] ∨ dataPre.isPrefixOf mailtoUrl = true ∨ jsPre.isPrefixOf mailtoUrl = true))]
  simp only []
  rw [if_neg hb]
  have hj : urljoin b mailtoUrl = mailtoUrl := by
    unfold urljoin
    rw [if_neg hb, if_neg (by decide : ¬(mailtoUrl = []))]
    simp only []
    have ht : urlsplitD mailtoUrl (urlsplitRaw b).scheme = urlsplitRaw mailtoUrl := by
      unfold urlsplitD
      rw [if_neg (by decide : ¬((urlsplitRaw mailtoUrl).scheme = []))]
    rw [ht]
    rw [if_pos (Or.inr (by decide : (urlsplitRaw mailtoUrl).scheme ∉ uses_relative))]
  rw [hj]
  decide

/-- Helper: a fold whose step keeps accumulated elements, and which
inserts `y` whenever it processes `y`, contains `y` at the end if `y`
occurred in the folded list or the initial accumulator. -/
theorem foldl_mem_of_step (f : List Chars → Chars → List Chars) (y : Chars)
    (hgrow : ∀ acc x z, z ∈ acc → z ∈ f acc x)
    (hself : ∀ acc, y ∈ f acc y) :
    ∀ (t acc : List Chars), y ∈ t ∨ y ∈ acc → y ∈ t.foldl f acc := by
  intro t
  induction t with
  | nil =>
    intro acc h
    rcases h with h | h
    · exact absurd h (List.not_mem_nil _)
    · exact h
  | cons x ts ih =>
    intro acc h
    rw [List.foldl_cons]
    rcases h with h | h
    · rcases List.mem_cons.mp h with hx | hts
      · exact ih (f acc x) (Or.inr (hx ▸ hself acc))
      · exact ih (f acc x) (Or.inl hts)
    · exact ih (f acc x) (Or.inr (hgrow acc x y h))

/-- Claim C10: `_is_same_domain` accepts every URL whose parsed network
location is empty, and consequently `find_internal_links` classifies a
normalized `mailto:` link as internal, queueing it as a page to crawl:
whenever the mailto href occurs among a page's anchors it appears in
the returned internal-link set, for every cloner and nonempty page URL. -/
theorem empty_netloc_same_domain_mailto :
    (∀ (cl : Cloner) (u : Chars), (urlsplitRaw u).netloc = [] →
      is_same_domain cl u = true) ∧
    (∀ (cl : Cloner) (b : Chars) (hrefs : List Chars), b ≠ [] →
      mailtoUrl ∈ hrefs → mailtoUrl ∈ find_internal_links cl hrefs b) := by
  have hsd : ∀ (cl : Cloner) (u : Chars), (urlsplitRaw u).netloc = [] →
      is_same_domain cl u = true := by
    intro cl u hn
    unfold is_same_domain
    rw [hn]
    rw [decide_eq_true_eq]
    exact Or.inr (Or.inl rfl)
  refine ⟨hsd, ?_⟩
  intro cl b hrefs hb hm
  unfold find_internal_links
  apply foldl_mem_of_step _ mailtoUrl ?hgrow ?hself hrefs [] (Or.inl hm)
  case hgrow =>
    intro acc x z hz
    simp only []
    split
    · exact List.mem_append_left _ hz
    · exact hz
  case hself =>
    intro acc
    simp only [normalize_mailto cl b hb]
    by_cases hacc : mailtoUrl ∈ acc
    · split
      · exact List.mem_append_left _ hacc
      · exact hacc
    · rw [if_pos ?_]
      · exact List.mem_append_right _ (List.mem_singleton.mpr rfl)
      · refine ⟨by decide, ?_, by decide, hacc⟩
        exact hsd cl mailtoUrl (by decide)

/-- Witness for C10 on a concrete page URL with a single mailto
anchor. -/
theorem empty_netloc_same_domain_mailto_witness :
    is_same_domain clE ("mailto:other@e.com".data) = true ∧
    mailtoUrl ∈ find_internal_links clE [mailtoUrl] ("http://e.com/page".data) :=
  ⟨empty_netloc_same_domain_mailto.1 clE ("mailto:other@e.com".data) (by decide),
   empty_netloc_same_domain_mailto.2 clE ("http://e.com/page".data) [mailtoUrl]
     (by decide) (by decide)⟩

/-- Helper: `Char.ofNat` of a valid code point evaluates back. -/
theorem charOfNat_toNat {n : Nat} (h : n.isValidChar) : (Char.ofNat n).toNat = n := by
  rw [Char.ofNat, dif_pos h]
  simp only [Char.ofNatAux, Char.toNat, UInt32.toNat, BitVec.toNat_ofNatLt]

/-- Helper: lower-casing an upper-case letter adds 32 to its code. -/
theorem lowerCh_toNat (c : Char) (h : isUpperCh c = true) : (lowerCh c).toNat = c.toNat + 32 := by
  simp only [lowerCh, h, if_true]
  apply charOfNat_toNat
  simp only [isUpperCh, decide_eq_true_eq] at h
  unfold Nat.isValidChar
  omega

/-- Helper: a lower-cased character is never upper-case. -/
theorem lowerCh_not_upper (c : Char) : isUpperCh (lowerCh c) = false := by
  by_cases h : isUpperCh c = true
  · simp only [isUpperCh, decide_eq_true_eq] at h ⊢
    rw [lowerCh_toNat c (by simp only [isUpperCh, decide_eq_true_eq]; omega)]
    simp only [decide_eq_false_iff_not]
    omega
  · simp only [Bool.not_eq_true] at h
    simp only [lowerCh, h, Bool.false_eq_true, if_false]

/-- Helper: lower-casing fixes non-upper-case characters. -/
theorem lowerCh_of_not_upper (c : Char) (h : isUpperCh c = false) : lowerCh c = c := by
  simp [lowerCh, h]

/-- Helper: lower-casing is idempotent. -/
theorem lowerCh_idem (c : Char) : lowerCh (lowerCh c) = lowerCh c :=
  lowerCh_of_not_upper _ (lowerCh_not_upper c)

/-- Helper: lower-casing preserves letters. -/
theorem isAlphaCh_lowerCh (c : Char) (h : isAlphaCh c = true) : isAlphaCh (lowerCh c) = true := by
  by_cases hu : isUpperCh c = true
  · have ht := lowerCh_toNat c hu
    simp only [isUpperCh, decide_eq_true_eq] at hu
    simp only [isAlphaCh, decide_eq_true_eq] at h ⊢
    omega
  · simp only [Bool.not_eq_true] at hu
    rw [lowerCh_of_not_upper c hu]
    exact h

/-- Helper: lower-casing preserves scheme characters. -/
theorem isSchemeChar_lowerCh (c : Char) (h : isSchemeChar c = true) :
    isSchemeChar (lowerCh c) = true := by
  by_cases hu : isUpperCh c = true
  · have ht := lowerCh_toNat c hu
    have ha : isAlphaCh (lowerCh c) = true := by
      simp only [isUpperCh, decide_eq_true_eq] at hu
      simp only [isAlphaCh, decide_eq_true_eq]
      omega
    simp only [isSchemeChar, ha, Bool.true_or]
  · simp only [Bool.not_eq_true] at hu
    rw [lowerCh_of_not_upper c hu]
    exact h

/-- Helper: scheme characters are never the colon. -/
theorem ne_colon_of_isSchemeChar (c : Char) (h : isSchemeChar c = true) : c ≠ ':' := by
  intro he
  subst he
  exact absurd h (by decide)

/-- Helper: a successful `splitAtFirst` decomposes the input, and the
split character does not occur before the split point. -/
theorem splitAtFirst_some (c : Char) :
    ∀ (s a b : Chars), splitAtFirst c s = some (a, b) → s = a ++ c :: b ∧ c ∉ a := by
  intro s
  induction s with
  | nil => intro a b h; exact absurd h (by simp [splitAtFirst])
  | cons x t ih =>
    intro a b h
    by_cases hx : x = c
    · subst hx
      simp only [splitAtFirst, if_pos rfl] at h
      cases h
      exact ⟨rfl, List.not_mem_nil _⟩
    · simp only [splitAtFirst, if_neg hx] at h
      cases ht : splitAtFirst c t with
      | none => rw [ht] at h; cases h
      | some ab =>
        rw [ht] at h
        obtain ⟨a', b'⟩ := ab
        cases h
        obtain ⟨he, hm⟩ := ih a' b ht
        constructor
        · rw [he]; rfl
        · simp only [List.mem_cons, not_or]
          exact ⟨fun hc => hx (hc ▸ rfl), hm⟩

/-- Helper: `splitAtFirst` fails exactly on inputs free of the split
character. -/
theorem splitAtFirst_none (c : Char) :
    ∀ s : Chars, splitAtFirst c s = none → c ∉ s := by
  intro s
  induction s with
  | nil => intro _; exact List.not_mem_nil _
  | cons x t ih =>
    intro h
    by_cases hx : x = c
    · subst hx; simp [splitAtFirst] at h
    · simp only [splitAtFirst, if_neg hx] at h
      cases ht : splitAtFirst c t with
      | none =>
        simp only [List.mem_cons, not_or]
        exact ⟨fun hc => hx hc.symm, ih ht⟩
      | some ab => rw [ht] at h; cases h

/-- Helper: `splitAtFirst` finds a planted first occurrence. -/
theorem splitAtFirst_append (c : Char) :
    ∀ (a b : Chars), c ∉ a → splitAtFirst c (a ++ c :: b) = some (a, b) := by
  intro a
  induction a with
  | nil => intro b _; simp [splitAtFirst]
  | cons x t ih =>
    intro b hm
    simp only [List.mem_cons, not_or] at hm
    rw [List.cons_append]
    simp only [splitAtFirst, if_neg (fun (h : x = c) => hm.1 h.symm)]
    rw [ih b hm.2]

/-- Helper: `splitAtFirst` returns `none` on occurrence-free input. -/
theorem splitAtFirst_none_of_not_mem (c : Char) :
    ∀ s : Chars, c ∉ s → splitAtFirst c s = none := by
  intro s
  induction s with
  | nil => intro _; rfl
  | cons x t ih =>
    intro hm
    simp only [List.mem_cons, not_or] at hm
    simp only [splitAtFirst, if_neg (fun (h : x = c) => hm.1 h.symm)]
    rw [ih hm.2]

/-- Helper: a valid lower-case scheme planted before a colon is
extracted unchanged. -/
theorem extractScheme_valid (s r : Chars) (hv : validSchemeLC s = true) :
    extractScheme (s ++ ':' :: r) = some (s, r) := by
  simp only [validSchemeLC, Bool.and_eq_true, decide_eq_true_eq] at hv
  obtain ⟨⟨hhead, hall⟩, hlow⟩ := hv
  have hnc : (':' : Char) ∉ s := by
    intro hc
    rw [List.all_eq_true] at hall
    exact ne_colon_of_isSchemeChar ':' (hall ':' hc) rfl
  unfold extractScheme
  rw [splitAtFirst_append ':' s r hnc]
  cases s with
  | nil => cases hhead
  | cons c0 cs =>
    simp only []
    rw [if_pos (by rw [Bool.and_eq_true]; exact ⟨hhead, hall⟩)]
    rw [hlow]

/-- Helper: any extracted scheme is a valid lower-case scheme and is
colon-free up to its end. -/
theorem extractScheme_output_valid (u s r : Chars) (h : extractScheme u = some (s, r)) :
    validSchemeLC s = true := by
  unfold extractScheme at h
  cases hsp : splitAtFirst ':' u with
  | none => rw [hsp] at h; cases h
  | some ab =>
    rw [hsp] at h
    obtain ⟨pre, rest⟩ := ab
    cases pre with
    | nil => cases h
    | cons c0 cs =>
      simp only [] at h
      by_cases hc : (isAlphaCh c0 && (c0 :: cs).all isSchemeChar) = true
      · rw [if_pos hc] at h
        rw [Bool.and_eq_true] at hc
        obtain ⟨hca, hcall⟩ := hc
        cases h
        simp only [validSchemeLC, Bool.and_eq_true, decide_eq_true_eq]
        refine ⟨⟨?_, ?_⟩, ?_⟩
        · simp only [List.map_cons]
          exact isAlphaCh_lowerCh c0 hca
        · rw [List.all_eq_true] at hcall ⊢
          intro x hx
          rw [List.mem_map] at hx
          obtain ⟨y, hy, hxy⟩ := hx
          rw [← hxy]
          exact isSchemeChar_lowerCh y (hcall y hy)
        · rw [List.map_map]
          apply List.map_congr_left
          intro x _
          exact lowerCh_idem x
      · rw [if_neg hc] at h
        cases h

/-- Helper: `takeWhile`/`dropWhile` on a satisfied block followed by a
stopper. -/
theorem takeWhile_append_stop (p : Char → Bool) :
    ∀ (l1 l2 : Chars), l1.all p = true →
      (match l2 with | [] => True | x :: _ => p x = false) →
      (l1 ++ l2).takeWhile p = l1 ∧ (l1 ++ l2).dropWhile p = l2 := by
  intro l1
  induction l1 with
  | nil =>
    intro l2 _ h2
    cases l2 with
    | nil => exact ⟨rfl, rfl⟩
    | cons x xs =>
      simp only [List.nil_append, List.takeWhile, List.dropWhile]
      simp only [] at h2
      rw [h2]
      exact ⟨rfl, rfl⟩
  | cons a t ih =>
    intro l2 h1 h2
    rw [List.all_cons, Bool.and_eq_true] at h1
    obtain ⟨ha, ht⟩ := h1
    have := ih l2 ht h2
    simp only [List.cons_append, List.takeWhile_cons, List.dropWhile_cons, ha, if_true]
    rw [this.1, this.2]
    exact ⟨rfl, rfl⟩

/-- Helper: the head surviving `dropWhile` fails the predicate. -/
theorem dropWhile_head_false (p : Char → Bool) :
    ∀ (l : Chars) (x : Char) (xs : Chars), l.dropWhile p = x :: xs → p x = false := by
  intro l
  induction l with
  | nil => intro x xs h; cases h
  | cons a t ih =>
    intro x xs h
    rw [List.dropWhile_cons] at h
    by_cases ha : p a = true
    · rw [if_pos ha] at h
      exact ih x xs h
    · rw [Bool.not_eq_true] at ha
      rw [ha] at h
      simp only [Bool.false_eq_true, if_false] at h
      cases h
      exact ha

/-- Helper: everything `takeWhile` keeps satisfies the predicate. -/
theorem takeWhile_all (p : Char → Bool) (l : Chars) : (l.takeWhile p).all p = true := by
  rw [List.all_eq_true]
  intro x hx
  exact List.mem_takeWhile_imp hx

/-- Helper: the components produced by `splitQF` never contain the
separators that bound them. -/
theorem splitQF_mem_props (r2 : Chars) :
    ('#' : Char) ∉ (splitQF r2).1 ∧ ('?' : Char) ∉ (splitQF r2).1 ∧
      ('#' : Char) ∉ (splitQF r2).2.1 := by
  unfold splitQF
  cases h1 : splitAtFirst '#' r2 with
  | none =>
    have hm1 : ('#' : Char) ∉ r2 := splitAtFirst_none '#' r2 h1
    simp only []
    cases h2 : splitAtFirst '?' r2 with
    | none =>
      simp only []
      exact ⟨hm1, splitAtFirst_none '?' r2 h2, List.not_mem_nil _⟩
    | some ab =>
      obtain ⟨a2, b2⟩ := ab
      obtain ⟨he, hm2⟩ := splitAtFirst_some '?' r2 a2 b2 h2
      simp only []
      subst he
      refine ⟨fun hc => hm1 (List.mem_append_left _ hc), hm2,
        fun hc => hm1 (List.mem_append_right _ (List.mem_cons_of_mem _ hc))⟩
  | some ab =>
    obtain ⟨a, b⟩ := ab
    obtain ⟨he, hm1⟩ := splitAtFirst_some '#' r2 a b h1
    simp only []
    cases h2 : splitAtFirst '?' a with
    | none =>
      simp only []
      exact ⟨hm1, splitAtFirst_none '?' a h2, List.not_mem_nil _⟩
    | some ab2 =>
      obtain ⟨a2, b2⟩ := ab2
      obtain ⟨he2, hm2⟩ := splitAtFirst_some '?' a a2 b2 h2
      simp only []
      subst he2
      refine ⟨fun hc => hm1 (List.mem_append_left _ hc), hm2,
        fun hc => hm1 (List.mem_append_right _ (List.mem_cons_of_mem _ hc))⟩

/-- Helper: `splitQF` recovers path, query and fragment from the string
`urlunsplit` builds from them. -/
theorem splitQF_reconstruct (path query fragment : Chars)
    (hp1 : ('#' : Char) ∉ path) (hp2 : ('?' : Char) ∉ path)
    (hq : ('#' : Char) ∉ query) :
    splitQF (path ++ (if query ≠ [] then '?' :: query else []) ++
             (if fragment ≠ [] then '#' :: fragment else [])) =
      (path, query, fragment) := by
  unfold splitQF
  by_cases hqe : query = []
  · subst hqe
    simp only [ne_eq, not_true_eq_false, if_neg, List.append_nil, if_false]
    by_cases hfe : fragment = []
    · subst hfe
      simp only [ne_eq, not_true_eq_false, if_neg, List.append_nil, if_false,
        Bool.false_eq_true]
      rw [splitAtFirst_none_of_not_mem '#' path hp1]
      simp only []
      rw [splitAtFirst_none_of_not_mem '?' path hp2]
    · rw [if_pos hfe]
      rw [splitAtFirst_append '#' path fragment hp1]
      simp only []
      rw [splitAtFirst_none_of_not_mem '?' path hp2]
  · rw [if_pos hqe]
    by_cases hfe : fragment = []
    · subst hfe
      simp only [ne_eq, not_true_eq_false, if_neg, List.append_nil, if_false,
        Bool.false_eq_true]
      have hm : ('#' : Char) ∉ path ++ '?' :: query := by
        simp only [List.mem_append, List.mem_cons, not_or]
        exact ⟨hp1, by decide, hq⟩
      rw [splitAtFirst_none_of_not_mem '#' _ hm]
      simp only []
      rw [splitAtFirst_append '?' path query hp2]
    · rw [if_pos hfe]
      have hm : ('#' : Char) ∉ path ++ '?' :: query := by
        simp only [List.mem_append, List.mem_cons, not_or]
        exact ⟨hp1, by decide, hq⟩
      rw [List.append_assoc] at *
      rw [show path ++ ('?' :: query ++ '#' :: fragment) =
        (path ++ '?' :: query) ++ '#' :: fragment by rw [List.append_assoc]]
      rw [splitAtFirst_append '#' _ fragment hm]
      simp only []
      rw [splitAtFirst_append '?' path query hp2]

/-- Helper: the path component of `splitQF` on input headed by a
separator or slash. -/
theorem splitQF_path_head (x : Char) (xs : Chars) :
    ((x = '#' ∨ x = '?') → (splitQF (x :: xs)).1 = []) ∧
    (x ≠ '#' → x ≠ '?' → (splitQF (x :: xs)).1.take 1 = [x]) := by
  constructor
  · rintro (hx | hx)
    · subst hx
      unfold splitQF
      rw [show splitAtFirst '#' ('#' :: xs) = some ([], xs) by simp [splitAtFirst]]
      simp [splitAtFirst]
    · subst hx
      unfold splitQF
      cases h1 : splitAtFirst '#' ('?' :: xs) with
      | none =>
        simp only []
        rw [show splitAtFirst '?' ('?' :: xs) = some ([], xs) by simp [splitAtFirst]]
      | some ab =>
        obtain ⟨a, b⟩ := ab
        obtain ⟨he, hm⟩ := splitAtFirst_some '#' _ a b h1
        cases a with
        | nil => cases he
        | cons a0 at_ =>
          have ha0 : a0 = '?' := by
            rw [List.cons_append] at he
            injection he with he0 he1
            exact he0.symm
          subst ha0
          simp only []
          rw [show splitAtFirst '?' ('?' :: at_) = some ([], at_) by simp [splitAtFirst]]
  · intro hx1 hx2
    unfold splitQF
    cases h1 : splitAtFirst '#' (x :: xs) with
    | none =>
      simp only []
      cases h2 : splitAtFirst '?' (x :: xs) with
      | none => simp only []; rfl
      | some ab =>
        obtain ⟨a, b⟩ := ab
        obtain ⟨he, hm⟩ := splitAtFirst_some '?' _ a b h2
        cases a with
        | nil =>
          exfalso
          rw [List.nil_append] at he
          injection he with he0 he1
          exact hx2 he0
        | cons a0 at_ =>
          rw [List.cons_append] at he
          injection he with he0 he1
          subst he0
          simp only []
          rfl
    | some ab =>
      obtain ⟨a, b⟩ := ab
      obtain ⟨he, hm⟩ := splitAtFirst_some '#' _ a b h1
      cases a with
      | nil =>
        exfalso
        rw [List.nil_append] at he
        injection he with he0 he1
        exact hx1 he0
      | cons a0 at_ =>
        rw [List.cons_append] at he
        injection he with he0 he1
        subst he0
        simp only []
        cases h2 : splitAtFirst '?' (x :: at_) with
        | none => simp only []; rfl
        | some ab2 =>
          obtain ⟨a2, b2⟩ := ab2
          obtain ⟨he2, -⟩ := splitAtFirst_some '?' _ a2 b2 h2
          cases a2 with
          | nil =>
            exfalso
            rw [List.nil_append] at he2
            injection he2 with he20 he21
            exact hx2 he20
          | cons c0 ct =>
            rw [List.cons_append] at he2
            injection he2 with he20 he21
            subst he20
            simp only []
            rfl

/-- Helper: `nlStop` is exactly slash, question mark or hash. -/
theorem nlStop_cases (x : Char) (h : nlStop x = true) : x = '/' ∨ x = '?' ∨ x = '#' := by
  simp only [nlStop, Bool.or_eq_true, beq_iff_eq] at h
  tauto

/-- Helper: every output of the `urlsplit` model is canonical: its
scheme is absent or valid lower-case, its netloc stops before any
`/?#`, its path contains no `#` or `?`, its query no `#`, and a
nonempty netloc forces an absent or absolute path. -/
theorem urlsplitRaw_canon (u : Chars) :
    ((urlsplitRaw u).scheme = [] ∨ validSchemeLC (urlsplitRaw u).scheme = true) ∧
    (urlsplitRaw u).netloc.all (fun c => !nlStop c) = true ∧
    ('#' : Char) ∉ (urlsplitRaw u).path ∧ ('?' : Char) ∉ (urlsplitRaw u).path ∧
    ('#' : Char) ∉ (urlsplitRaw u).query ∧
    ((urlsplitRaw u).netloc ≠ [] →
      (urlsplitRaw u).path = [] ∨ (urlsplitRaw u).path.take 1 = ['/']) := by
  have main : ∀ (sch r1 : Chars), (sch = [] ∨ validSchemeLC sch = true) →
      ∀ hu : urlsplitRaw u =
        (let nr :=
          if r1.take 2 = ['/', '/'] then
            ((r1.drop 2).takeWhile (fun c => !nlStop c),
             (r1.drop 2).dropWhile (fun c => !nlStop c))
          else (([] : Chars), r1)
        let pqf := splitQF nr.2
        ⟨sch, nr.1, pqf.1, pqf.2.1, pqf.2.2⟩),
      ((urlsplitRaw u).scheme = [] ∨ validSchemeLC (urlsplitRaw u).scheme = true) ∧
      (urlsplitRaw u).netloc.all (fun c => !nlStop c) = true ∧
      ('#' : Char) ∉ (urlsplitRaw u).path ∧ ('?' : Char) ∉ (urlsplitRaw u).path ∧
      ('#' : Char) ∉ (urlsplitRaw u).query ∧
      ((urlsplitRaw u).netloc ≠ [] →
        (urlsplitRaw u).path = [] ∨ (urlsplitRaw u).path.take 1 = ['/']) := by
    intro sch r1 hsch hu
    by_cases hsl : r1.take 2 = ['/', '/']
    · rw [if_pos hsl] at hu
      simp only [] at hu
      rw [hu]
      simp only []
      have hp := splitQF_mem_props ((r1.drop 2).dropWhile (fun c => !nlStop c))
      refine ⟨hsch, takeWhile_all _ _, hp.1, hp.2.1, hp.2.2, ?_⟩
      intro _
      cases hr : (r1.drop 2).dropWhile (fun c => !nlStop c) with
      | nil =>
        left
        rfl
      | cons x xs =>
        have hx : (!nlStop x) = false := dropWhile_head_false _ _ x xs hr
        have hx' : nlStop x = true := by
          cases hnx : nlStop x
          · rw [hnx] at hx; cases hx
          · rfl
        rcases nlStop_cases x hx' with h | h | h
        · subst h
          right
          exact (splitQF_path_head '/' xs).2 (by decide) (by decide)
        · subst h
          left
          exact (splitQF_path_head '?' xs).1 (Or.inr rfl)
        · subst h
          left
          exact (splitQF_path_head '#' xs).1 (Or.inl rfl)
    · rw [if_neg hsl] at hu
      simp only [] at hu
      rw [hu]
      simp only []
      have hp := splitQF_mem_props r1
      exact ⟨hsch, rfl, hp.1, hp.2.1, hp.2.2, fun h => absurd rfl h⟩
  cases he : extractScheme u with
  | none =>
    apply main [] u (Or.inl rfl)
    unfold urlsplitRaw
    rw [he]
  | some sr =>
    obtain ⟨sch, r1⟩ := sr
    apply main sch r1 (Or.inr (extractScheme_output_valid u sch r1 he))
    unfold urlsplitRaw
    rw [he]

/-- Helper: with a scheme present, `urlunsplit` is the scheme, a colon,
then authority/path/query/fragment in sequence. -/
theorem unsplit_body_eq (p : UrlParts) (hs : p.scheme ≠ []) :
    urlunsplit p = p.scheme ++ ':' ::
      ((if p.netloc ≠ [] ∨ p.path.take 2 = ['/', '/'] then
          '/' :: '/' :: (p.netloc ++
            (if p.path ≠ [] ∧ p.path.take 1 ≠ ['/'] then '/' :: p.path else p.path))
        else p.path) ++
       (if p.query ≠ [] then '?' :: p.query else []) ++
       (if p.fragment ≠ [] then '#' :: p.fragment else [])) := by
  unfold urlunsplit
  by_cases hq : p.query = [] <;> by_cases hf : p.fragment = [] <;>
    by_cases hnl : p.netloc ≠ [] ∨ p.path.take 2 = ['/', '/'] <;>
      simp [hs, hq, hf, hnl, List.append_assoc]

/-- Helper: `takeWhile`/`dropWhile` recover a netloc followed by a
stopper-headed (or empty) remainder. -/
theorem takeWhile_netloc (netloc rest : Chars)
    (hn : netloc.all (fun c => !nlStop c) = true)
    (hrest : rest = [] ∨ rest.take 1 = ['/'] ∨ rest.take 1 = ['?'] ∨ rest.take 1 = ['#']) :
    (netloc ++ rest).takeWhile (fun c => !nlStop c) = netloc ∧
    (netloc ++ rest).dropWhile (fun c => !nlStop c) = rest := by
  apply takeWhile_append_stop _ _ _ hn
  cases rest with
  | nil => trivial
  | cons x xs =>
    simp only [List.take, List.cons.injEq] at hrest
    rcases hrest with h | ⟨hx, -⟩ | ⟨hx, -⟩ | ⟨hx, -⟩
    · cases h
    · subst hx; exact rfl
    · subst hx; exact rfl
    · subst hx; exact rfl

/-- Helper: the shape of the path/query/fragment tail when the path is
absent or absolute. -/
theorem tail_shape (path query fragment : Chars)
    (hpath : path = [] ∨ path.take 1 = ['/']) :
    (path ++ (if query ≠ [] then '?' :: query else []) ++
     (if fragment ≠ [] then '#' :: fragment else [])) = [] ∨
    (path ++ (if query ≠ [] then '?' :: query else []) ++
     (if fragment ≠ [] then '#' :: fragment else [])).take 1 = ['/'] ∨
    (path ++ (if query ≠ [] then '?' :: query else []) ++
     (if fragment ≠ [] then '#' :: fragment else [])).take 1 = ['?'] ∨
    (path ++ (if query ≠ [] then '?' :: query else []) ++
     (if fragment ≠ [] then '#' :: fragment else [])).take 1 = ['#'] := by
  rcases hpath with hp | hp
  · subst hp
    by_cases hq : query = []
    · by_cases hf : fragment = []
      · left; simp [hq, hf]
      · right; right; right; simp [hq, hf]
    · right; right; left; simp [hq]
  · cases path with
    | nil => cases hp
    | cons a t =>
      simp only [List.take, List.take_zero, List.cons.injEq] at hp
      obtain ⟨ha, -⟩ := hp
      subst ha
      right; left
      simp

/-- Helper: parsing the unparse of canonical parts with a scheme
recovers the parts exactly (round trip). -/
theorem urlsplit_unsplit_roundtrip (p : UrlParts)
    (hs : validSchemeLC p.scheme = true)
    (hn : p.netloc.all (fun c => !nlStop c) = true)
    (hp1 : ('#' : Char) ∉ p.path) (hp2 : ('?' : Char) ∉ p.path)
    (hq : ('#' : Char) ∉ p.query)
    (hnp : p.netloc ≠ [] → p.path = [] ∨ p.path.take 1 = ['/']) :
    urlsplitRaw (urlunsplit p) = p := by
  have hsne : p.scheme ≠ [] := by
    intro h
    rw [h] at hs
    exact absurd hs (by decide)
  rw [unsplit_body_eq p hsne]
  by_cases hcase : p.netloc ≠ [] ∨ p.path.take 2 = ['/', '/']
  · have hadj : (if p.path ≠ [] ∧ p.path.take 1 ≠ ['/'] then '/' :: p.path else p.path)
        = p.path := by
      rcases hcase with hne | hsl
      · rcases hnp hne with h | h
        · rw [if_neg]
          intro hc
          exact hc.1 h
        · rw [if_neg]
          intro hc
          exact hc.2 h
      · rw [if_neg]
        intro hc
        apply hc.2
        cases hp : p.path with
        | nil => rw [hp] at hsl; cases hsl
        | cons a t =>
          rw [hp] at hsl
          cases t with
          | nil => cases hsl
          | cons b t2 =>
            simp only [List.take, List.cons.injEq] at hsl
            obtain ⟨ha, -⟩ := hsl
            subst ha
            rfl
    rw [if_pos hcase, hadj]
    unfold urlsplitRaw
    rw [show p.scheme ++ ':' ::
        (('/' :: '/' :: (p.netloc ++ p.path)) ++
         (if p.query ≠ [] then '?' :: p.query else []) ++
         (if p.fragment ≠ [] then '#' :: p.fragment else [])) =
      p.scheme ++ ':' ::
        ('/' :: '/' :: (p.netloc ++
          (p.path ++ (if p.query ≠ [] then '?' :: p.query else []) ++
           (if p.fragment ≠ [] then '#' :: p.fragment else [])))) by
      simp [List.append_assoc]]
    rw [extractScheme_valid _ _ hs]
    simp only []
    have htk := takeWhile_netloc p.netloc
      (p.path ++ (if p.query ≠ [] then '?' :: p.query else []) ++
       (if p.fragment ≠ [] then '#' :: p.fragment else []))
      hn
      (tail_shape p.path p.query p.fragment (by
        rcases hcase with hne | hsl
        · exact hnp hne
        · right
          cases hp : p.path with
          | nil => rw [hp] at hsl; cases hsl
          | cons a t =>
            rw [hp] at hsl
            cases t with
            | nil => cases hsl
            | cons b t2 =>
              simp only [List.take, List.cons.injEq] at hsl
              obtain ⟨ha, -⟩ := hsl
              subst ha
              rfl))
    rw [if_pos (by rfl : (('/' : Char) :: '/' :: (p.netloc ++ _)).take 2 = ['/', '/'])]
    simp only [List.drop_succ_cons, List.drop_zero]
    rw [htk.1, htk.2]
    rw [splitQF_reconstruct p.path p.query p.fragment hp1 hp2 hq]
  · push_neg at hcase
    obtain ⟨hne, hsl⟩ := hcase
    rw [if_neg (by
      push_neg
      constructor
      · simpa using hne
      · exact hsl)]
    unfold urlsplitRaw
    rw [extractScheme_valid _ _ hs]
    simp only []
    have hbody : (p.path ++ (if p.query ≠ [] then '?' :: p.query else []) ++
        (if p.fragment ≠ [] then '#' :: p.fragment else [])).take 2 ≠ ['/', '/'] := by
      cases hp : p.path with
      | nil =>
        by_cases hqe : p.query = []
        · by_cases hfe : p.fragment = []
          · simp [hqe, hfe]
          · simp only [hqe, hfe, ne_eq, not_true_eq_false, if_false, if_neg,
              not_false_eq_true, if_true, List.nil_append]
            intro hcon
            simp only [List.take, List.cons.injEq] at hcon
            exact absurd hcon.1 (by decide)
        · simp only [hqe, ne_eq, not_false_eq_true, if_true, List.nil_append]
          intro hcon
          rw [List.cons_append] at hcon
          simp only [List.take, List.cons.injEq] at hcon
          exact absurd hcon.1 (by decide)
      | cons a t =>
        by_cases ha : a = '/'
        · subst ha
          cases t with
          | nil =>
            intro hcon
            rw [List.cons_append, List.nil_append] at hcon
            simp only [List.take, List.cons.injEq] at hcon
            obtain ⟨-, hcon2⟩ := hcon
            by_cases hqe : p.query = []
            · by_cases hfe : p.fragment = []
              · rw [hqe, hfe] at hcon2
                simp at hcon2
              · rw [hqe] at hcon2
                simp only [ne_eq, not_true_eq_false, if_false, if_neg, hfe,
                  not_false_eq_true, if_true, List.nil_append] at hcon2
                cases hfrag : p.fragment with
                | nil => exact hfe hfrag
                | cons f0 ft =>
                  rw [hfrag] at hcon2
                  simp only [List.take, List.cons.injEq] at hcon2
                  exact absurd hcon2.1 (by decide)
            · simp only [ne_eq, hqe, not_false_eq_true, if_true] at hcon2
              cases hquery : p.query with
              | nil => exact hqe hquery
              | cons q0 qt =>
                rw [hquery] at hcon2
                simp only [List.cons_append, List.take, List.cons.injEq] at hcon2
                exact absurd hcon2.1 (by decide)
          | cons b t2 =>
            have hb : b ≠ '/' := by
              intro hbc
              subst hbc
              rw [hp] at hsl
              exact hsl rfl
            intro hcon
            simp only [List.cons_append, List.take, List.cons.injEq] at hcon
            exact hb hcon.2.1
        · intro hcon
          simp only [List.cons_append, List.take, List.cons.injEq] at hcon
          exact ha hcon.1
    rw [if_neg hbody]
    simp only []
    rw [splitQF_reconstruct p.path p.query p.fragment hp1 hp2 hq]
    simp only []
    rw [← hne]

/-- Helper: a valid scheme is nonempty. -/
theorem validSchemeLC_ne_nil (s : Chars) (hs : validSchemeLC s = true) : s ≠ [] := by
  intro h
  rw [h] at hs
  exact absurd hs (by decide)

/-- Helper: with a scheme present the unparse is nonempty. -/
theorem unsplit_ne_nil (p : UrlParts) (hs : p.scheme ≠ []) : urlunsplit p ≠ [] := by
  rw [unsplit_body_eq p hs]
  cases hp : p.scheme with
  | nil => exact absurd hp hs
  | cons a t => simp

/-- Helper: the default scheme is ignored when the URL has its own. -/
theorem urlsplitD_of_scheme_ne (u d : Chars) (h : (urlsplitRaw u).scheme ≠ []) :
    urlsplitD u d = urlsplitRaw u := by
  unfold urlsplitD
  rw [if_neg h]

/-- Helper: the default scheme fills in an absent scheme. -/
theorem urlsplitD_of_scheme_nil (u d : Chars) (h : (urlsplitRaw u).scheme = []) :
    urlsplitD u d = { urlsplitRaw u with scheme := d } := by
  unfold urlsplitD
  rw [if_pos h]

/-- Helper: re-parsing the unparse recovers scheme and netloc whenever
the netloc is present, regardless of the path's shape (the unparse
inserts the separating slash itself). -/
theorem unsplit_parse_scheme_netloc (p : UrlParts)
    (hs : validSchemeLC p.scheme = true)
    (hn : p.netloc.all (fun c => !nlStop c) = true)
    (hne : p.netloc ≠ []) :
    (urlsplitRaw (urlunsplit p)).scheme = p.scheme ∧
    (urlsplitRaw (urlunsplit p)).netloc = p.netloc := by
  have hsne : p.scheme ≠ [] := validSchemeLC_ne_nil _ hs
  rw [unsplit_body_eq p hsne]
  rw [if_pos (Or.inl hne)]
  have hshape : (if p.path ≠ [] ∧ p.path.take 1 ≠ ['/'] then '/' :: p.path else p.path) = []
      ∨ (if p.path ≠ [] ∧ p.path.take 1 ≠ ['/'] then '/' :: p.path else p.path).take 1
        = ['/'] := by
    by_cases hc : p.path ≠ [] ∧ p.path.take 1 ≠ ['/']
    · rw [if_pos hc]
      right
      rfl
    · rw [if_neg hc]
      push_neg at hc
      by_cases hp : p.path = []
      · left
        exact hp
      · right
        exact hc hp
  rw [show p.scheme ++ ':' ::
      (('/' :: '/' :: (p.netloc ++
          (if p.path ≠ [] ∧ p.path.take 1 ≠ ['/'] then '/' :: p.path else p.path))) ++
        (if p.query ≠ [] then '?' :: p.query else []) ++
        (if p.fragment ≠ [] then '#' :: p.fragment else [])) =
    p.scheme ++ ':' ::
      ('/' :: '/' :: (p.netloc ++
        ((if p.path ≠ [] ∧ p.path.take 1 ≠ ['/'] then '/' :: p.path else p.path) ++
          (if p.query ≠ [] then '?' :: p.query else []) ++
          (if p.fragment ≠ [] then '#' :: p.fragment else [])))) by
    simp [List.append_assoc]]
  unfold urlsplitRaw
  rw [extractScheme_valid _ _ hs]
  simp only []
  rw [if_pos (by rfl : (('/' : Char) :: '/' :: (p.netloc ++ _)).take 2 = ['/', '/'])]
  simp only [List.drop_succ_cons, List.drop_zero]
  have htk := takeWhile_netloc p.netloc
    ((if p.path ≠ [] ∧ p.path.take 1 ≠ ['/'] then '/' :: p.path else p.path) ++
      (if p.query ≠ [] then '?' :: p.query else []) ++
      (if p.fragment ≠ [] then '#' :: p.fragment else []))
    hn (tail_shape _ p.query p.fragment hshape)
  rw [htk.1]
  exact ⟨trivial, rfl⟩

/-- Helper: the default scheme never changes the netloc. -/
theorem urlsplitD_netloc (u d : Chars) : (urlsplitD u d).netloc = (urlsplitRaw u).netloc := by
  unfold urlsplitD
  simp only []
  split
  · rfl
  · rfl

/-- Helper: `urljoin` returns the URL unchanged when its scheme differs
from the base scheme or is not in `uses_relative`. -/
theorem urljoin_eq_url (b u : Chars) (hbne : b ≠ []) (hune : u ≠ [])
    (hcond : (urlsplitD u (urlsplitRaw b).scheme).scheme ≠ (urlsplitRaw b).scheme ∨
      (urlsplitD u (urlsplitRaw b).scheme).scheme ∉ uses_relative) :
    urljoin b u = u := by
  unfold urljoin
  rw [if_neg hbne, if_neg hune]
  simp only []
  rw [if_pos hcond]

/-- Helper: when the URL shares the base's (relative-capable,
netloc-capable) scheme, `urljoin` produces the unparse of the URL's own
parts when they carry a netloc, and otherwise the unparse of parts
carrying the base's netloc. -/
theorem urljoin_eq_of_rel (b u : Chars) (hbne : b ≠ []) (hune : u ≠ [])
    (heq : (urlsplitD u (urlsplitRaw b).scheme).scheme = (urlsplitRaw b).scheme)
    (hrel : (urlsplitD u (urlsplitRaw b).scheme).scheme ∈ uses_relative)
    (hnl : (urlsplitRaw b).scheme ∈ uses_netloc) :
    (urljoin b u = urlunsplit (urlsplitD u (urlsplitRaw b).scheme) ∧
      (urlsplitD u (urlsplitRaw b).scheme).netloc ≠ []) ∨
    ((urlsplitD u (urlsplitRaw b).scheme).netloc = [] ∧
      ∃ pathX queryX, urljoin b u =
        urlunsplit ⟨(urlsplitD u (urlsplitRaw b).scheme).scheme, (urlsplitRaw b).netloc,
          pathX, queryX, (urlsplitD u (urlsplitRaw b).scheme).fragment⟩) := by
  unfold urljoin
  rw [if_neg hbne, if_neg hune]
  rw [if_neg (show ¬((urlsplitD u (urlsplitRaw b).scheme).scheme ≠ (urlsplitRaw b).scheme ∨
      (urlsplitD u (urlsplitRaw b).scheme).scheme ∉ uses_relative) by
    push_neg
    exact ⟨heq, hrel⟩)]
  by_cases hnet : (urlsplitD u (urlsplitRaw b).scheme).netloc = []
  · right
    refine ⟨hnet, ?_⟩
    rw [if_neg (show ¬((urlsplitD u (urlsplitRaw b).scheme).scheme ∈ uses_netloc ∧
        (urlsplitD u (urlsplitRaw b).scheme).netloc ≠ []) by
      intro hc
      exact hc.2 hnet)]
    rw [if_pos (show (urlsplitD u (urlsplitRaw b).scheme).scheme ∈ uses_netloc by
      rw [heq]; exact hnl)]
    by_cases hpath : (urlsplitD u (urlsplitRaw b).scheme).path = []
    · rw [if_pos hpath]
      exact ⟨_, _, rfl⟩
    · rw [if_neg hpath]
      exact ⟨_, _, rfl⟩
  · left
    constructor
    · rw [if_pos (show (urlsplitD u (urlsplitRaw b).scheme).scheme ∈ uses_netloc ∧
        (urlsplitD u (urlsplitRaw b).scheme).netloc ≠ [] from
          ⟨by rw [heq]; exact hnl, hnet⟩)]
    · exact hnet

/-- Helper: under a good base, `urljoin` always outputs a URL whose
parse has a scheme, and whose parse has a netloc whenever its scheme
coincides with the base scheme. -/
theorem urljoin_parse_facts (b u : Chars) (hb : GoodBase b) (hu : u ≠ []) :
    (urlsplitRaw (urljoin b u)).scheme ≠ [] ∧
    ((urlsplitRaw (urljoin b u)).scheme = (urlsplitRaw b).scheme →
      (urlsplitRaw (urljoin b u)).netloc ≠ []) := by
  obtain ⟨hbne, hbs, hbrel, hbnl, hbnet⟩ := hb
  have hcanb := urlsplitRaw_canon b
  have hcanu := urlsplitRaw_canon u
  have hbvalid : validSchemeLC (urlsplitRaw b).scheme = true := by
    rcases hcanb.1 with h | h
    · exact absurd h hbs
    · exact h
  have key : ∀ q : UrlParts, validSchemeLC q.scheme = true →
      q.netloc.all (fun c => !nlStop c) = true → q.netloc ≠ [] →
      (urlsplitRaw (urlunsplit q)).scheme ≠ [] ∧
      ((urlsplitRaw (urlunsplit q)).scheme = (urlsplitRaw b).scheme →
        (urlsplitRaw (urlunsplit q)).netloc ≠ []) := by
    intro q h1 h2 h3
    have hr := unsplit_parse_scheme_netloc q h1 h2 h3
    rw [hr.1, hr.2]
    exact ⟨validSchemeLC_ne_nil _ h1, fun _ => h3⟩
  have common : (urlsplitD u (urlsplitRaw b).scheme).scheme = (urlsplitRaw b).scheme →
      (urlsplitRaw (urljoin b u)).scheme ≠ [] ∧
      ((urlsplitRaw (urljoin b u)).scheme = (urlsplitRaw b).scheme →
        (urlsplitRaw (urljoin b u)).netloc ≠ []) := by
    intro heq
    have hrel : (urlsplitD u (urlsplitRaw b).scheme).scheme ∈ uses_relative := by
      rw [heq]
      exact hbrel
    rcases urljoin_eq_of_rel b u hbne hu heq hrel hbnl with ⟨hj, hnet⟩ | ⟨hnet, pX, qX, hj⟩
    · rw [hj]
      apply key
      · rw [heq]
        exact hbvalid
      · rw [urlsplitD_netloc]
        exact hcanu.2.1
      · exact hnet
    · rw [hj]
      apply key
      · show validSchemeLC (urlsplitD u (urlsplitRaw b).scheme).scheme = true
        rw [heq]
        exact hbvalid
      · show ((urlsplitRaw b).netloc.all fun c => !nlStop c) = true
        exact hcanb.2.1
      · exact hbnet
  by_cases hus : (urlsplitRaw u).scheme = []
  · apply common
    rw [urlsplitD_of_scheme_nil u _ hus]
  · by_cases hcond : (urlsplitD u (urlsplitRaw b).scheme).scheme ≠ (urlsplitRaw b).scheme ∨
        (urlsplitD u (urlsplitRaw b).scheme).scheme ∉ uses_relative
    · rw [urljoin_eq_url b u hbne hu hcond]
      rw [urlsplitD_of_scheme_ne u _ hus] at hcond
      refine ⟨hus, ?_⟩
      intro hsch
      exfalso
      rcases hcond with hne | hnotrel
      · exact hne hsch
      · exact hnotrel (hsch ▸ hbrel)
    · push_neg at hcond
      exact common hcond.1

/-- Helper: joining the unparse of canonical parts against the same
good base returns it unchanged, and it re-parses to the same parts. -/
theorem urljoin_unsplit_self (b : Chars) (hb : GoodBase b) (P0 : UrlParts)
    (hs : validSchemeLC P0.scheme = true)
    (hn : P0.netloc.all (fun c => !nlStop c) = true)
    (hp1 : ('#' : Char) ∉ P0.path) (hp2 : ('?' : Char) ∉ P0.path)
    (hq : ('#' : Char) ∉ P0.query)
    (hnp : P0.netloc ≠ [] → P0.path = [] ∨ P0.path.take 1 = ['/'])
    (himp : P0.scheme = (urlsplitRaw b).scheme → P0.netloc ≠ []) :
    urljoin b (urlunsplit P0) = urlunsplit P0 ∧ urlsplitRaw (urlunsplit P0) = P0 := by
  obtain ⟨hbne, hbs, hbrel, hbnl, hbnet⟩ := hb
  have hrt : urlsplitRaw (urlunsplit P0) = P0 :=
    urlsplit_unsplit_roundtrip P0 hs hn hp1 hp2 hq hnp
  have hne : urlunsplit P0 ≠ [] := unsplit_ne_nil P0 (validSchemeLC_ne_nil _ hs)
  have htd : urlsplitD (urlunsplit P0) (urlsplitRaw b).scheme = P0 := by
    rw [urlsplitD_of_scheme_ne _ _ (by rw [hrt]; exact validSchemeLC_ne_nil _ hs), hrt]
  refine ⟨?_, hrt⟩
  by_cases hcond : P0.scheme ≠ (urlsplitRaw b).scheme ∨ P0.scheme ∉ uses_relative
  · apply urljoin_eq_url b _ hbne hne
    rw [htd]
    exact hcond
  · push_neg at hcond
    obtain ⟨heq, hrel⟩ := hcond
    have hj := urljoin_eq_of_rel b (urlunsplit P0) hbne hne
      (by rw [htd]; exact heq) (by rw [htd]; exact hrel) hbnl
    rcases hj with ⟨hj, _⟩ | ⟨hnet, pX, qX, hj⟩
    · rw [hj, htd]
    · exfalso
      rw [htd] at hnet
      exact himp heq hnet

/-- Claim C5 (amended): URL normalization is idempotent for every URL
`u` and every base of the shape the scraper joins against (an absolute
URL with a hierarchical scheme and a host, e.g. any `http`/`https`
URL), *except* when the first normalization itself produces a string
that begins with `data:` or `javascript:` — which happens exactly for
case-variant spellings such as `DATA:x`, whose lower-cased output the
case-sensitive guard then maps to the empty string.  The empty-string
results for `data:`/`javascript:` inputs are themselves idempotent
(`normalize('') = ''`). -/
theorem normalize_idempotent_amended (cl : Cloner) (u b : Chars) (hb : GoodBase b)
    (hd : ¬ dataPre.isPrefixOf (normalize_url cl u (some b)) = true)
    (hj : ¬ jsPre.isPrefixOf (normalize_url cl u (some b)) = true) :
    normalize_url cl (normalize_url cl u (some b)) (some b) = normalize_url cl u (some b) := by
  by_cases hguard : u = [] ∨ dataPre.isPrefixOf u = true ∨ jsPre.isPrefixOf u = true
  · have h1 : normalize_url cl u (some b) = [] := by
      unfold normalize_url
      rw [if_pos hguard]
    rw [h1]
    unfold normalize_url
    rw [if_pos (Or.inl rfl)]
  · have hu : u ≠ [] := fun h => hguard (Or.inl h)
    have hveq : normalize_url cl u (some b) =
        urlunsplit ((urlsplitRaw (urljoin b u)).withFragment []) := by
      unfold normalize_url
      rw [if_neg hguard]
      simp only []
      rw [if_neg hb.1]
    have hcanw := urlsplitRaw_canon (urljoin b u)
    have hjf := urljoin_parse_facts b u hb hu
    have hPs : validSchemeLC ((urlsplitRaw (urljoin b u)).withFragment []).scheme = true := by
      rcases hcanw.1 with h | h
      · exact absurd h hjf.1
      · exact h
    have hself := urljoin_unsplit_self b hb ((urlsplitRaw (urljoin b u)).withFragment [])
      hPs hcanw.2.1 hcanw.2.2.1 hcanw.2.2.2.1 hcanw.2.2.2.2.1 hcanw.2.2.2.2.2 hjf.2
    rw [hveq] at hd hj ⊢
    unfold normalize_url
    rw [if_neg (show ¬(urlunsplit ((urlsplitRaw (urljoin b u)).withFragment []) = [] ∨
        dataPre.isPrefixOf (urlunsplit ((urlsplitRaw (urljoin b u)).withFragment [])) = true ∨
        jsPre.isPrefixOf (urlunsplit ((urlsplitRaw (urljoin b u)).withFragment [])) = true) by
      rintro (h | h | h)
      · exact unsplit_ne_nil _ (validSchemeLC_ne_nil _ hPs) h
      · exact hd h
      · exact hj h)]
    simp only []
    rw [if_neg hb.1]
    rw [hself.1, hself.2]
    rfl

/-- Witness for the amended C5 theorem: a relative URL against the base
`http://example.com` normalizes idempotently. -/
theorem normalize_idempotent_amended_witness :
    normalize_url clEx (normalize_url clEx ("page.html".data) (some httpBase)) (some httpBase) =
      normalize_url clEx ("page.html".data) (some httpBase) :=
  normalize_idempotent_amended clEx ("page.html".data) httpBase
    (by unfold GoodBase; decide) (by decide) (by decide)
